import Mathlib

/-!
Verification of the CXXRingBuffer SPSC ring buffer (sbooth/CXXRingBuffer).

The development shallowly embeds the ring buffer from
Sources/CXXRingBuffer/include/CXXRingBuffer/RingBuffer.hpp (the modern
variant with free-running size_t cursors; the skip overload taking an
allowPartial flag is taken from the sibling header shipped in the
repository).  Machine words (std::size_t, of bit width w) are modelled as
natural numbers together with explicit reduction modulo 2 ^ w wherever the
source performs size_t arithmetic.  The backing byte region is modelled as
a function from physical offsets to byte values; std::memcpy into the
region becomes a pointwise overwrite of an offset range, and std::memcpy
out of the region becomes a list of the bytes in an offset range.
Since the allowPartial parameter name of the source is unavailable here,
the corresponding parameter is named allowShort throughout.
-/

namespace CXXRB

/-- A byte value stored in the ring buffer, modelled as a natural number. -/
abbrev Byte := Nat

/-- Machine subtraction a - b on unsigned words of width w, modelled on
natural numbers: the result is reduced modulo 2 ^ w.  This is the exact
semantics of std::size_t subtraction used by the source for cursor
arithmetic. -/
def wsub (w a b : Nat) : Nat := (a + (2 ^ w - b % 2 ^ w)) % 2 ^ w

/-- Model of std::memcpy(dst + idx, src, data.length) where dst is the byte
region buf and src holds the bytes data: offsets idx to idx + data.length
are overwritten with data, all other offsets keep their value. -/
def memcpyAt (buf : Nat → Byte) (idx : Nat) (data : List Byte) : Nat → Byte :=
  fun j => if idx ≤ j ∧ j < idx + data.length then data.getD (j - idx) 0 else buf j

/-- Model of std::memcpy(dst, src + idx, len) where src is the byte region
buf: the list of the len bytes stored at offsets idx, idx+1, ... -/
def readBytes (buf : Nat → Byte) (idx len : Nat) : List Byte :=
  (List.range len).map fun i => buf (idx + i)

/-- State of a CXXRingBuffer::RingBuffer object.  The field names follow
the C++ data members; allocated models whether the buffer_ pointer is
non-null, and buffer_ models the contents of the allocated byte region. -/
structure RingBuffer where
  allocated : Bool
  buffer_ : Nat → Byte
  capacity_ : Nat
  capacityMask_ : Nat
  writePosition_ : Nat
  readPosition_ : Nat

/-- A default-constructed RingBuffer: no allocation, all fields zero. -/
def RingBuffer.init : RingBuffer :=
  { allocated := false, buffer_ := fun _ => 0, capacity_ := 0, capacityMask_ := 0,
    writePosition_ := 0, readPosition_ := 0 }

/-- RingBuffer::minCapacity, the minimum supported capacity in bytes. -/
def RingBuffer.minCapacity : Nat := 2

/-- RingBuffer::maxCapacity, SizeType(1) shifted left by (digits - 1) where
digits is the bit width w of the index type. -/
def RingBuffer.maxCapacity (w : Nat) : Nat := 1 <<< (w - 1)

/-- Fuel-driven bit width recursion, so that the definition evaluates by
kernel reduction on concrete inputs. -/
def bitWidthAux : Nat → Nat → Nat
  | 0, _ => 0
  | fuel + 1, n => if n = 0 then 0 else bitWidthAux fuel (n / 2) + 1

/-- Bit width of a natural number: the number of binary digits, zero for
zero; this models the bit_width function of the C++ standard library. -/
def bitWidth (n : Nat) : Nat := bitWidthAux n n

/-- Model of std::bit_ceil on an unsigned integer: the smallest power of
two that is not less than the argument (1 for arguments 0 and 1); for an
argument of at least 2 this is 2 raised to the bit width of
(argument - 1). -/
def bitCeil (n : Nat) : Nat := if n ≤ 1 then 1 else 2 ^ bitWidth (n - 1)

/-- RingBuffer::capacity(): returns the capacity_ field. -/
def RingBuffer.capacity (s : RingBuffer) : Nat := s.capacity_

/-- RingBuffer::freeSpace(): capacity_ - (writePosition_ - readPosition_)
in size_t arithmetic. -/
def RingBuffer.freeSpace (s : RingBuffer) (w : Nat) : Nat :=
  wsub w s.capacity_ (wsub w s.writePosition_ s.readPosition_)

/-- RingBuffer::availableBytes(): writePosition_ - readPosition_ in size_t
arithmetic. -/
def RingBuffer.availableBytes (s : RingBuffer) (w : Nat) : Nat :=
  wsub w s.writePosition_ s.readPosition_

/-- RingBuffer::isEmpty(): the two cursors are equal. -/
def RingBuffer.isEmpty (s : RingBuffer) : Bool :=
  s.writePosition_ == s.readPosition_

/-- RingBuffer::isFull(): writePosition_ - readPosition_ equals capacity_. -/
def RingBuffer.isFull (s : RingBuffer) (w : Nat) : Bool :=
  wsub w s.writePosition_ s.readPosition_ == s.capacity_

/-- RingBuffer::deallocate(): if the region is allocated, free it and zero
every field; otherwise do nothing. -/
def RingBuffer.deallocate (s : RingBuffer) : RingBuffer :=
  if s.allocated then RingBuffer.init else s

/-- RingBuffer::allocate(minCapacity) combined from the repository sources:
reject a requested capacity below minCapacity or above maxCapacity, release
any existing allocation, round the size up with std::bit_ceil, then obtain
a region from the allocator.  The allocator outcome is the parameter mem:
none models malloc failure (the buffer is left deallocated), some m models
success with initial region contents m (malloc does not initialize).  On
success capacity_, capacityMask_ are set and both cursors are zeroed. -/
def RingBuffer.allocate (s : RingBuffer) (w : Nat) (minCap : Nat)
    (mem : Option (Nat → Byte)) : RingBuffer × Bool :=
  if minCap < RingBuffer.minCapacity ∨ RingBuffer.maxCapacity w < minCap then
    (s, false)
  else
    let s1 := s.deallocate
    let size := bitCeil minCap
    match mem with
    | none => (s1, false)
    | some m =>
      ({ allocated := true, buffer_ := m, capacity_ := size,
         capacityMask_ := size - 1, writePosition_ := 0, readPosition_ := 0 }, true)

/-- RingBuffer::write(ptr, itemSize, itemCount, allowPartial).  The source
pointer is modelled as Option (List Byte): none is a null pointer, some
data holds the bytes at the pointer.  Returns the updated state and the
number of items written.  allowShort models the allowPartial flag. -/
def RingBuffer.write (s : RingBuffer) (w : Nat) (ptr : Option (List Byte))
    (itemSize itemCount : Nat) (allowShort : Bool) : RingBuffer × Nat :=
  match ptr with
  | none => (s, 0)
  | some data =>
    if itemSize = 0 ∨ itemCount = 0 ∨ s.capacity_ = 0 then (s, 0) else
    let writePos := s.writePosition_
    let readPos := s.readPosition_
    let bytesUsed := wsub w writePos readPos
    let bytesFree := wsub w s.capacity_ bytesUsed
    let itemsFree := bytesFree / itemSize
    if itemsFree = 0 ∨ (itemsFree < itemCount ∧ allowShort = false) then (s, 0) else
    let itemsToWrite := min itemsFree itemCount
    let bytesToWrite := itemsToWrite * itemSize % 2 ^ w
    let writeIndex := writePos &&& s.capacityMask_
    let bytesToEnd := wsub w s.capacity_ writeIndex
    let buf2 :=
      if bytesToWrite ≤ bytesToEnd then
        memcpyAt s.buffer_ writeIndex (data.take bytesToWrite)
      else
        memcpyAt (memcpyAt s.buffer_ writeIndex (data.take bytesToEnd)) 0
          ((data.drop bytesToEnd).take (bytesToWrite - bytesToEnd))
    ({ s with buffer_ := buf2,
              writePosition_ := (writePos + bytesToWrite) % 2 ^ w }, itemsToWrite)

/-- RingBuffer::read(ptr, itemSize, itemCount, allowPartial).  The null
check on the destination pointer is modelled by ptrNull; the bytes copied
to the destination are returned as the third component.  allowShort models
the allowPartial flag. -/
def RingBuffer.read (s : RingBuffer) (w : Nat) (ptrNull : Bool)
    (itemSize itemCount : Nat) (allowShort : Bool) : RingBuffer × Nat × List Byte :=
  if ptrNull = true ∨ itemSize = 0 ∨ itemCount = 0 ∨ s.capacity_ = 0 then (s, 0, []) else
  let writePos := s.writePosition_
  let readPos := s.readPosition_
  let bytesUsed := wsub w writePos readPos
  let itemsAvailable := bytesUsed / itemSize
  if itemsAvailable = 0 ∨ (itemsAvailable < itemCount ∧ allowShort = false) then (s, 0, []) else
  let itemsToRead := min itemsAvailable itemCount
  let bytesToRead := itemsToRead * itemSize % 2 ^ w
  let readIndex := readPos &&& s.capacityMask_
  let bytesToEnd := wsub w s.capacity_ readIndex
  let out :=
    if bytesToRead ≤ bytesToEnd then
      readBytes s.buffer_ readIndex bytesToRead
    else
      readBytes s.buffer_ readIndex bytesToEnd ++ readBytes s.buffer_ 0 (bytesToRead - bytesToEnd)
  ({ s with readPosition_ := (readPos + bytesToRead) % 2 ^ w }, itemsToRead, out)

/-- RingBuffer::peek(ptr, itemSize, itemCount).  The method is const in the
source, so the model returns only the success flag and the bytes copied to
the destination; the ring buffer state is unchanged by construction. -/
def RingBuffer.peek (s : RingBuffer) (w : Nat) (ptrNull : Bool)
    (itemSize itemCount : Nat) : Bool × List Byte :=
  if ptrNull = true ∨ itemSize = 0 ∨ itemCount = 0 ∨ s.capacity_ = 0 then (false, []) else
  let bytesUsed := wsub w s.writePosition_ s.readPosition_
  let itemsAvailable := bytesUsed / itemSize
  if itemsAvailable < itemCount then (false, []) else
  let bytesToPeek := itemCount * itemSize % 2 ^ w
  let readIndex := s.readPosition_ &&& s.capacityMask_
  let bytesToEnd := wsub w s.capacity_ readIndex
  let out :=
    if bytesToPeek ≤ bytesToEnd then
      readBytes s.buffer_ readIndex bytesToPeek
    else
      readBytes s.buffer_ readIndex bytesToEnd ++ readBytes s.buffer_ 0 (bytesToPeek - bytesToEnd)
  (true, out)

/-- RingBuffer::skip(itemSize, itemCount, allowPartial), the overload with
the partial flag as shipped in the repository sibling header: same integral
item policy as read, no copy, advances the read cursor.  allowShort models
the allowPartial flag. -/
def RingBuffer.skip (s : RingBuffer) (w : Nat) (itemSize itemCount : Nat)
    (allowShort : Bool) : RingBuffer × Nat :=
  if itemSize = 0 ∨ itemCount = 0 ∨ s.capacity_ = 0 then (s, 0) else
  let bytesUsed := wsub w s.writePosition_ s.readPosition_
  let itemsAvailable := bytesUsed / itemSize
  if itemsAvailable = 0 ∨ (itemsAvailable < itemCount ∧ allowShort = false) then (s, 0) else
  let itemsToSkip := min itemsAvailable itemCount
  let bytesToSkip := itemsToSkip * itemSize % 2 ^ w
  ({ s with readPosition_ := (s.readPosition_ + bytesToSkip) % 2 ^ w }, itemsToSkip)

/-- RingBuffer::drain(): advance the read cursor to the write cursor and
return the number of bytes discarded. -/
def RingBuffer.drain (s : RingBuffer) (w : Nat) : RingBuffer × Nat :=
  if s.capacity_ = 0 then (s, 0) else
  let writePos := s.writePosition_
  let readPos := s.readPosition_
  let bytesUsed := wsub w writePos readPos
  if bytesUsed = 0 then (s, 0) else
  ({ s with readPosition_ := writePos }, bytesUsed)

/-- RingBuffer::commitWrite(count): advance the write cursor by count.  The
debug assertion that count does not exceed the free space is a precondition
of the source, not a runtime effect. -/
def RingBuffer.commitWrite (s : RingBuffer) (w : Nat) (count : Nat) : RingBuffer :=
  { s with writePosition_ := (s.writePosition_ + count) % 2 ^ w }

/-- RingBuffer::commitRead(count): advance the read cursor by count.  The
debug assertion that count does not exceed the available data is a
precondition of the source, not a runtime effect. -/
def RingBuffer.commitRead (s : RingBuffer) (w : Nat) (count : Nat) : RingBuffer :=
  { s with readPosition_ := (s.readPosition_ + count) % 2 ^ w }

/-- A span into the backing region, modelling the std::span values returned
by writeVector and readVector: a starting offset and a byte count. -/
structure Span where
  off : Nat
  size : Nat
deriving DecidableEq

/-- RingBuffer::writeVector(): the two contiguous segments of the writable
region, in physical order, as offset and length into the backing region. -/
def RingBuffer.writeVector (s : RingBuffer) (w : Nat) : Span × Span :=
  let writePos := s.writePosition_
  let readPos := s.readPosition_
  let bytesUsed := wsub w writePos readPos
  let bytesFree := wsub w s.capacity_ bytesUsed
  if bytesFree = 0 then (⟨0, 0⟩, ⟨0, 0⟩) else
  let writeIndex := writePos &&& s.capacityMask_
  let bytesToEnd := wsub w s.capacity_ writeIndex
  if bytesFree > bytesToEnd then
    (⟨writeIndex, bytesToEnd⟩, ⟨0, bytesFree - bytesToEnd⟩)
  else
    (⟨writeIndex, bytesFree⟩, ⟨0, 0⟩)

/-- RingBuffer::readVector(): the two contiguous segments of the readable
region, in physical order, as offset and length into the backing region. -/
def RingBuffer.readVector (s : RingBuffer) (w : Nat) : Span × Span :=
  let writePos := s.writePosition_
  let readPos := s.readPosition_
  let bytesUsed := wsub w writePos readPos
  if bytesUsed = 0 then (⟨0, 0⟩, ⟨0, 0⟩) else
  let readIndex := readPos &&& s.capacityMask_
  let bytesToEnd := wsub w s.capacity_ readIndex
  if bytesUsed > bytesToEnd then
    (⟨readIndex, bytesToEnd⟩, ⟨0, bytesUsed - bytesToEnd⟩)
  else
    (⟨readIndex, bytesUsed⟩, ⟨0, 0⟩)

/-- The writeArg lambda inside RingBuffer::writeValues: copy one argument
(the byte list arg) at logical offset cursor through the two segments front
and back, switching from front to back and splitting an argument that
straddles the boundary. -/
def writeArg (front back : Span) (buf : Nat → Byte) (cursor : Nat)
    (arg : List Byte) : Nat → Byte :=
  let frontSize := front.size
  if cursor + arg.length ≤ frontSize then
    memcpyAt buf (front.off + cursor) arg
  else if frontSize ≤ cursor then
    memcpyAt buf (back.off + (cursor - frontSize)) arg
  else
    let toFront := frontSize - cursor
    memcpyAt (memcpyAt buf (front.off + cursor) (arg.take toFront))
      back.off (arg.drop toFront)

/-- The fold of writeArg over the argument pack of RingBuffer::writeValues,
with the cursor advancing by the size of each argument. -/
def writeArgs (front back : Span) : Nat → (Nat → Byte) → List (List Byte) → (Nat → Byte)
  | _, buf, [] => buf
  | cursor, buf, a :: rest =>
    writeArgs front back (cursor + a.length) (writeArg front back buf cursor a) rest

/-- RingBuffer::writeValues(args...): each argument is modelled as its byte
representation (a byte list of length sizeof).  Checks the write vector for
room, copies every argument in declaration order through the two segments,
and commits the total size; all-or-nothing on failure. -/
def RingBuffer.writeValues (s : RingBuffer) (w : Nat)
    (args : List (List Byte)) : RingBuffer × Bool :=
  let totalSize := (args.map List.length).sum
  let fb := s.writeVector w
  let front := fb.1
  let back := fb.2
  if front.size + back.size < totalSize then (s, false) else
  let buf2 := writeArgs front back 0 s.buffer_ args
  (RingBuffer.commitWrite { s with buffer_ := buf2 } w totalSize, true)

/-- The bool-returning RingBuffer::writeValue(value): write(addr, sizeof
value, 1, false) == 1; data is the byte representation of the value. -/
def RingBuffer.writeValue (s : RingBuffer) (w : Nat) (data : List Byte) :
    RingBuffer × Bool :=
  let r := s.write w (some data) data.length 1 false
  (r.1, r.2 == 1)

/-- The optional-returning RingBuffer::readValue of T.  The method first
default-constructs T inside the optional (result.emplace()); ctorThrows
models whether that default constructor throws.  A throw propagates before
the buffer is touched, so the state is returned unchanged together with
Except.error.  Otherwise read(addr, size, 1, false) runs; on success the
bytes read are returned, otherwise none.  size models sizeof T. -/
def RingBuffer.readValueOpt (s : RingBuffer) (w : Nat) (ctorThrows : Bool)
    (size : Nat) : RingBuffer × Except Unit (Option (List Byte)) :=
  if ctorThrows then (s, Except.error ()) else
  let r := s.read w false size 1 false
  if r.2.1 = 1 then (r.1, Except.ok (some r.2.2)) else (r.1, Except.ok none)

/-- Number of bytes in the buffer: writePosition_ - readPosition_ in size_t
arithmetic, the quantity the source derives everywhere. -/
def RingBuffer.used (s : RingBuffer) (w : Nat) : Nat :=
  wsub w s.writePosition_ s.readPosition_

/-- Abstraction: the logical byte queue held by the buffer, read off from
the backing region starting at the read cursor. -/
def RingBuffer.queue (s : RingBuffer) (w : Nat) : List Byte :=
  (List.range (s.used w)).map fun i => s.buffer_ ((s.readPosition_ + i) % s.capacity_)

/-- Well-formedness of an allocated ring buffer state: the region is
allocated, the capacity is a power of two in the supported range for word
width w, the mask is capacity minus one, cursors are reduced words, and at
most capacity bytes are in flight. -/
structure WF (w : Nat) (s : RingBuffer) : Prop where
  isAlloc : s.allocated = true
  capPow : ∃ k, s.capacity_ = 2 ^ k
  capGe : 2 ≤ s.capacity_
  capBound : 2 * s.capacity_ ≤ 2 ^ w
  maskEq : s.capacityMask_ = s.capacity_ - 1
  wpLt : s.writePosition_ < 2 ^ w
  rpLt : s.readPosition_ < 2 ^ w
  usedLe : wsub w s.writePosition_ s.readPosition_ ≤ s.capacity_

/-- A step of the producer-consumer interaction for the FIFO theorem:
either a bulk write of given bytes or a bulk read. -/
inductive Op where
  | wr (data : List Byte) (itemSize itemCount : Nat) (allowShort : Bool)
  | rd (itemSize itemCount : Nat) (allowShort : Bool)

/-- Validity of one operation: item size and count are positive and a
write has as many source bytes as it offers to the buffer (the C++ caller
contract for the source pointer). -/
def ValidOp : Op → Prop
  | .wr data isz cnt _ => 0 < isz ∧ 0 < cnt ∧ cnt * isz ≤ data.length
  | .rd isz cnt _ => 0 < isz ∧ 0 < cnt

instance (op : Op) : Decidable (ValidOp op) :=
  match op with
  | Op.wr data isz cnt _ =>
    inferInstanceAs (Decidable (0 < isz ∧ 0 < cnt ∧ cnt * isz ≤ data.length))
  | Op.rd isz cnt _ => inferInstanceAs (Decidable (0 < isz ∧ 0 < cnt))

/-- Run a sequence of write and read operations, collecting the bytes the
writes accepted and the bytes the reads delivered, in order. -/
def runOps (w : Nat) : RingBuffer → List Op → RingBuffer × List Byte × List Byte
  | s, [] => (s, [], [])
  | s, Op.wr data isz cnt ap :: rest =>
    let r := s.write w (some data) isz cnt ap
    let t := runOps w r.1 rest
    (t.1, data.take (r.2 * isz) ++ t.2.1, t.2.2)
  | s, Op.rd isz cnt ap :: rest =>
    let r := s.read w false isz cnt ap
    let t := runOps w r.1 rest
    (t.1, t.2.1, r.2.2 ++ t.2.2)

/-- The unallocated state shape: no capacity and both cursors zero, as
established by default construction, deallocation, and moved-from reset. -/
def ZeroState (s : RingBuffer) : Prop :=
  s.capacity_ = 0 ∧ s.writePosition_ = 0 ∧ s.readPosition_ = 0

/-- The state invariant: either unallocated with zero cursors, or an
allocated well-formed buffer. -/
def Inv (w : Nat) (s : RingBuffer) : Prop := ZeroState s ∨ WF w s

/-- The states reachable by sequentially executing public operations,
starting from a default-constructed buffer.  The commit operations carry
their documented preconditions (exceeding them is undefined behavior in
the source); writeValues arguments have positive size as every C++ object
does. -/
inductive Reach (w : Nat) : RingBuffer → Prop
  | init : Reach w RingBuffer.init
  | alloc (s : RingBuffer) (n : Nat) (mem : Option (Nat → Byte)) :
      Reach w s → Reach w (s.allocate w n mem).1
  | dealloc (s : RingBuffer) : Reach w s → Reach w s.deallocate
  | wr (s : RingBuffer) (ptr : Option (List Byte)) (isz cnt : Nat) (ap : Bool) :
      Reach w s → Reach w (s.write w ptr isz cnt ap).1
  | rd (s : RingBuffer) (pn : Bool) (isz cnt : Nat) (ap : Bool) :
      Reach w s → Reach w (s.read w pn isz cnt ap).1
  | sk (s : RingBuffer) (isz cnt : Nat) (ap : Bool) :
      Reach w s → Reach w (s.skip w isz cnt ap).1
  | dr (s : RingBuffer) : Reach w s → Reach w (s.drain w).1
  | cw (s : RingBuffer) (cnt : Nat) :
      Reach w s → cnt ≤ s.freeSpace w → Reach w (s.commitWrite w cnt)
  | cr (s : RingBuffer) (cnt : Nat) :
      Reach w s → cnt ≤ s.availableBytes w → Reach w (s.commitRead w cnt)
  | wv (s : RingBuffer) (args : List (List Byte)) :
      Reach w s → args ≠ [] → (∀ a ∈ args, a ≠ ([] : List Byte)) →
      Reach w (s.writeValues w args).1

/-- A concrete backing region holding zero bytes everywhere. -/
def sampleBuf : Nat → Byte := fun _ => 0

/-- A concrete well-formed allocated buffer state: capacity 4 with word
width 4, both cursors zero. -/
def sampleState : RingBuffer :=
  { allocated := true, buffer_ := sampleBuf, capacity_ := 4, capacityMask_ := 3,
    writePosition_ := 0, readPosition_ := 0 }

/-- A concrete state with data in flight: three bytes written. -/
def sampleState3 : RingBuffer :=
  { allocated := true, buffer_ := fun j => j + 10, capacity_ := 4, capacityMask_ := 3,
    writePosition_ := 3, readPosition_ := 0 }

theorem WF.capLt {w : Nat} {s : RingBuffer} (h : WF w s) : s.capacity_ < 2 ^ w := by
  have h1 := h.capGe
  have h2 := h.capBound
  omega

theorem WF.capDvd {w : Nat} {s : RingBuffer} (h : WF w s) : s.capacity_ ∣ 2 ^ w := by
  obtain ⟨k, hk⟩ := h.capPow
  have h2 := h.capBound
  rw [hk] at h2 ⊢
  have hkw : k ≤ w := by
    by_contra hlt
    push_neg at hlt
    have : 2 ^ w < 2 ^ k := Nat.pow_lt_pow_right (by omega) hlt
    omega
  exact pow_dvd_pow 2 hkw

theorem WF.capPos {w : Nat} {s : RingBuffer} (h : WF w s) : 0 < s.capacity_ := by
  have := h.capGe; omega

-- MARK: word arithmetic toolkit

theorem two_pow_pos (w : Nat) : 0 < 2 ^ w := Nat.pos_pow_of_pos w (by omega)

theorem wsub_lt (w a b : Nat) : wsub w a b < 2 ^ w :=
  Nat.mod_lt _ (two_pow_pos w)

/-- Computing the machine difference of (b + u) mod 2 ^ w and b recovers u
mod 2 ^ w. -/
theorem wsub_of_add (w b u : Nat) (hb : b < 2 ^ w) :
    wsub w ((b + u) % 2 ^ w) b = u % 2 ^ w := by
  unfold wsub
  rw [Nat.mod_eq_of_lt hb, Nat.mod_add_mod]
  have h1 : b + u + (2 ^ w - b) = u + 2 ^ w := by omega
  rw [h1, Nat.add_mod_right]

/-- Characterization of the machine difference: if a is (b + u) reduced,
with u a reduced word, then a - b computes exactly u. -/
theorem wsub_char (w a b u : Nat) (hb : b < 2 ^ w) (hu : u < 2 ^ w)
    (h : (b + u) % 2 ^ w = a) : wsub w a b = u := by
  rw [← h, wsub_of_add w b u hb, Nat.mod_eq_of_lt hu]

/-- Every reduced word a can be written as b plus its machine difference
from b, reduced. -/
theorem add_wsub (w a b : Nat) (ha : a < 2 ^ w) (hb : b < 2 ^ w) :
    (b + wsub w a b) % 2 ^ w = a := by
  unfold wsub
  rw [Nat.mod_eq_of_lt hb, Nat.add_mod_mod]
  have h1 : b + (a + (2 ^ w - b)) = a + 2 ^ w := by omega
  rw [h1, Nat.add_mod_right, Nat.mod_eq_of_lt ha]

/-- Machine subtraction agrees with truncated subtraction when no borrow
occurs. -/
theorem wsub_of_le (w a b : Nat) (hba : b ≤ a) (ha : a < 2 ^ w) :
    wsub w a b = a - b := by
  unfold wsub
  rw [Nat.mod_eq_of_lt (by omega : b < 2 ^ w)]
  have h1 : a + (2 ^ w - b) = (a - b) + 2 ^ w := by omega
  rw [h1, Nat.add_mod_right, Nat.mod_eq_of_lt (by omega)]

-- MARK: list access helpers

theorem getD_take_of_lt {α : Type} (l : List α) (n i : Nat) (d : α) (h : i < n) :
    (l.take n).getD i d = l.getD i d := by
  simp [List.getD_eq_getElem?_getD, List.getElem?_take, h]

theorem getD_drop {α : Type} (l : List α) (n i : Nat) (d : α) :
    (l.drop n).getD i d = l.getD (n + i) d := by
  simp [List.getD_eq_getElem?_getD, List.getElem?_drop]

-- MARK: memcpy model

theorem memcpyAt_in (buf : Nat → Byte) (idx : Nat) (data : List Byte) (j : Nat)
    (h1 : idx ≤ j) (h2 : j < idx + data.length) :
    memcpyAt buf idx data j = data.getD (j - idx) 0 := by
  simp [memcpyAt, h1, h2]

theorem memcpyAt_out (buf : Nat → Byte) (idx : Nat) (data : List Byte) (j : Nat)
    (h : j < idx ∨ idx + data.length ≤ j) :
    memcpyAt buf idx data j = buf j := by
  unfold memcpyAt
  split
  next hc => omega
  next => rfl

/-- Characterization of the two-memcpy wrap-around write used by
RingBuffer::write: byte i of the data ends up at physical offset
(idx + i) mod c. -/
theorem ringWrite_at (buf : Nat → Byte) (c idx bytes : Nat) (data : List Byte)
    (hidx : idx < c) (hbytes : bytes ≤ c) (hlen : bytes ≤ data.length)
    (i : Nat) (hi : i < bytes) :
    (if bytes ≤ c - idx then memcpyAt buf idx (data.take bytes)
     else memcpyAt (memcpyAt buf idx (data.take (c - idx))) 0
       ((data.drop (c - idx)).take (bytes - (c - idx)))) ((idx + i) % c)
    = data.getD i 0 := by
  have htl : (data.take bytes).length = bytes := by
    rw [List.length_take]; omega
  by_cases hb : bytes ≤ c - idx
  · rw [if_pos hb]
    have hlt : idx + i < c := by omega
    rw [Nat.mod_eq_of_lt hlt, memcpyAt_in buf idx _ _ (by omega) (by omega)]
    have hsub : idx + i - idx = i := by omega
    rw [hsub, getD_take_of_lt data bytes i 0 hi]
  · rw [if_neg hb]
    push_neg at hb
    have he0 : 0 < c - idx := by omega
    have hel : c - idx ≤ data.length := by omega
    have htel : (data.take (c - idx)).length = c - idx := by
      rw [List.length_take]; omega
    have hd2 : ((data.drop (c - idx)).take (bytes - (c - idx))).length = bytes - (c - idx) := by
      rw [List.length_take, List.length_drop]; omega
    by_cases hie : i < c - idx
    · have hlt : idx + i < c := by omega
      rw [Nat.mod_eq_of_lt hlt]
      rw [memcpyAt_out _ 0 _ _ (Or.inr (by omega))]
      rw [memcpyAt_in buf idx _ _ (by omega) (by omega)]
      have hsub : idx + i - idx = i := by omega
      rw [hsub, getD_take_of_lt data (c - idx) i 0 hie]
    · push_neg at hie
      have h1 : idx + i = c + (i - (c - idx)) := by omega
      have h2 : (idx + i) % c = i - (c - idx) := by
        rw [h1, Nat.add_mod_left, Nat.mod_eq_of_lt (by omega)]
      rw [h2]
      rw [memcpyAt_in _ 0 _ _ (by omega) (by omega)]
      have hsub : i - (c - idx) - 0 = i - (c - idx) := by omega
      rw [hsub, getD_take_of_lt _ _ _ _ (by omega : i - (c - idx) < bytes - (c - idx))]
      rw [getD_drop]
      have hsum : c - idx + (i - (c - idx)) = i := by omega
      rw [hsum]

/-- Frame property of the two-memcpy wrap-around write: any physical offset
not of the form (idx + i) mod c with i below the byte count keeps its
previous value. -/
theorem ringWrite_frame (buf : Nat → Byte) (c idx bytes : Nat) (data : List Byte)
    (hidx : idx < c) (hbytes : bytes ≤ c) (hlen : bytes ≤ data.length)
    (j : Nat) (hj : ∀ i, i < bytes → (idx + i) % c ≠ j) :
    (if bytes ≤ c - idx then memcpyAt buf idx (data.take bytes)
     else memcpyAt (memcpyAt buf idx (data.take (c - idx))) 0
       ((data.drop (c - idx)).take (bytes - (c - idx)))) j
    = buf j := by
  have htl : (data.take bytes).length = bytes := by
    rw [List.length_take]; omega
  by_cases hb : bytes ≤ c - idx
  · rw [if_pos hb]
    apply memcpyAt_out
    rw [htl]
    by_contra hcon
    push_neg at hcon
    exact hj (j - idx) (by omega) (by rw [Nat.mod_eq_of_lt (by omega)]; omega)
  · rw [if_neg hb]
    push_neg at hb
    have htel : (data.take (c - idx)).length = c - idx := by
      rw [List.length_take]; omega
    have hd2 : ((data.drop (c - idx)).take (bytes - (c - idx))).length = bytes - (c - idx) := by
      rw [List.length_take, List.length_drop]; omega
    have hout2 : j < 0 ∨ 0 + ((data.drop (c - idx)).take (bytes - (c - idx))).length ≤ j := by
      rw [hd2]
      by_contra hcon
      push_neg at hcon
      refine hj (c - idx + j) (by omega) ?_
      have h1 : idx + (c - idx + j) = c + j := by omega
      rw [h1, Nat.add_mod_left, Nat.mod_eq_of_lt (by omega)]
    rw [memcpyAt_out _ 0 _ _ hout2]
    apply memcpyAt_out
    rw [htel]
    by_contra hcon
    push_neg at hcon
    exact hj (j - idx) (by omega) (by rw [Nat.mod_eq_of_lt (by omega)]; omega)

/-- Characterization of the two-memcpy wrap-around read used by
RingBuffer::read and peek: the bytes delivered are exactly the bytes at
physical offsets (idx + i) mod c in order. -/
theorem ringRead_eq (buf : Nat → Byte) (c idx bytes : Nat)
    (hidx : idx < c) (hbytes : bytes ≤ c) :
    (if bytes ≤ c - idx then readBytes buf idx bytes
     else readBytes buf idx (c - idx) ++ readBytes buf 0 (bytes - (c - idx)))
    = (List.range bytes).map (fun i => buf ((idx + i) % c)) := by
  by_cases hb : bytes ≤ c - idx
  · rw [if_pos hb]
    unfold readBytes
    apply List.map_congr_left
    intro i hi
    rw [List.mem_range] at hi
    rw [Nat.mod_eq_of_lt (by omega)]
  · rw [if_neg hb]
    push_neg at hb
    apply List.ext_getElem
    · simp [readBytes]
      omega
    · intro i h1 h2
      have hi2 : i < bytes := by simpa using h2
      simp only [readBytes, List.getElem_map, List.getElem_range]
      have hlen1 : (List.map (fun i => buf (idx + i)) (List.range (c - idx))).length
          = c - idx := by simp
      by_cases hie : i < c - idx
      · rw [List.getElem_append_left (by rw [hlen1]; omega)]
        simp only [List.getElem_map, List.getElem_range]
        rw [Nat.mod_eq_of_lt (by omega)]
      · push_neg at hie
        rw [List.getElem_append_right (by rw [hlen1]; omega)]
        simp only [List.getElem_map, List.getElem_range, hlen1]
        have h3 : idx + i = c + (i - (c - idx)) := by omega
        have h4 : i - (c - idx) < c := by omega
        rw [h3, Nat.add_mod_left, Nat.mod_eq_of_lt h4, Nat.zero_add]

-- MARK: queue abstraction lemmas

theorem add_mod_mod_of_dvd (A i c M : Nat) (h : c ∣ M) :
    (A % M + i) % c = (A + i) % c := by
  conv_lhs => rw [Nat.add_mod]
  rw [Nat.mod_mod_of_dvd A h, ← Nat.add_mod]

theorem rp_add_used {w : Nat} {s : RingBuffer} (h : WF w s) :
    (s.readPosition_ + s.used w) % 2 ^ w = s.writePosition_ :=
  add_wsub w s.writePosition_ s.readPosition_ h.wpLt h.rpLt

theorem wp_mod_cap {w : Nat} {s : RingBuffer} (h : WF w s) :
    s.writePosition_ % s.capacity_ = (s.readPosition_ + s.used w) % s.capacity_ := by
  rw [← rp_add_used h, Nat.mod_mod_of_dvd _ h.capDvd]

theorem queue_length (s : RingBuffer) (w : Nat) : (s.queue w).length = s.used w := by
  simp [RingBuffer.queue]

theorem queue_getElem (s : RingBuffer) (w : Nat) (i : Nat) (hi : i < (s.queue w).length) :
    (s.queue w)[i] = s.buffer_ ((s.readPosition_ + i) % s.capacity_) := by
  simp [RingBuffer.queue]

/-- Effect on the abstract queue of overwriting the ring positions starting
at the write cursor with bytes of data and advancing the write cursor: the
queue grows by exactly those bytes at the back. -/
theorem queue_write_char {w : Nat} {s : RingBuffer} (h : WF w s)
    (buf2 : Nat → Byte) (bytes : Nat) (data : List Byte)
    (hfit : s.used w + bytes ≤ s.capacity_) (hlen : bytes ≤ data.length)
    (h1 : ∀ i, i < bytes →
      buf2 ((s.writePosition_ % s.capacity_ + i) % s.capacity_) = data.getD i 0)
    (h2 : ∀ j, (∀ i, i < bytes →
      (s.writePosition_ % s.capacity_ + i) % s.capacity_ ≠ j) → buf2 j = s.buffer_ j) :
    RingBuffer.queue
      { s with buffer_ := buf2, writePosition_ := (s.writePosition_ + bytes) % 2 ^ w } w
      = s.queue w ++ data.take bytes := by
  have hcpos : 0 < s.capacity_ := h.capPos
  have hclt : s.capacity_ < 2 ^ w := h.capLt
  have hused : RingBuffer.used
      { s with buffer_ := buf2, writePosition_ := (s.writePosition_ + bytes) % 2 ^ w } w
      = s.used w + bytes := by
    show wsub w ((s.writePosition_ + bytes) % 2 ^ w) s.readPosition_ = s.used w + bytes
    apply wsub_char w _ _ _ h.rpLt (by omega)
    rw [← rp_add_used h, Nat.mod_add_mod, Nat.add_assoc]
  have htake : (data.take bytes).length = bytes := by rw [List.length_take]; omega
  have hq2 : RingBuffer.queue
      { s with buffer_ := buf2, writePosition_ := (s.writePosition_ + bytes) % 2 ^ w } w
      = (List.range (s.used w + bytes)).map
          (fun i => buf2 ((s.readPosition_ + i) % s.capacity_)) := by
    simp only [RingBuffer.queue, hused]
  rw [hq2]
  apply List.ext_getElem
  · simp only [List.length_map, List.length_range, List.length_append, htake, queue_length]
  · intro i hl hr
    have hi : i < s.used w + bytes := by simpa using hl
    simp only [List.getElem_map, List.getElem_range]
    by_cases hiu : i < s.used w
    · have hne : ∀ i', i' < bytes →
          (s.writePosition_ % s.capacity_ + i') % s.capacity_
            ≠ (s.readPosition_ + i) % s.capacity_ := by
        intro i' hi' heq
        rw [wp_mod_cap h, Nat.mod_add_mod, Nat.add_assoc] at heq
        have hcan : (s.used w + i') % s.capacity_ = i % s.capacity_ :=
          Nat.ModEq.add_left_cancel' s.readPosition_ heq
        rw [Nat.mod_eq_of_lt (by omega), Nat.mod_eq_of_lt (by omega)] at hcan
        omega
      rw [h2 _ hne]
      have hql : i < (s.queue w).length := by rw [queue_length]; omega
      rw [List.getElem_append_left hql, queue_getElem s w i hql]
    · push_neg at hiu
      have hsplit : s.readPosition_ + i = s.readPosition_ + s.used w + (i - s.used w) := by
        omega
      have hidx : (s.readPosition_ + i) % s.capacity_
          = (s.writePosition_ % s.capacity_ + (i - s.used w)) % s.capacity_ := by
        rw [hsplit, wp_mod_cap h, Nat.mod_add_mod]
      rw [hidx, h1 _ (by omega)]
      have hql : (s.queue w).length ≤ i := by rw [queue_length]; omega
      rw [List.getElem_append_right hql]
      simp only [queue_length]
      rw [List.getElem_take]
      exact List.getD_eq_getElem data 0 (show i - s.used w < data.length by omega)

/-- The bytes at ring positions starting at the read cursor are the front
of the abstract queue. -/
theorem ringRead_takes {w : Nat} {s : RingBuffer} (h : WF w s)
    (bytes : Nat) (hb : bytes ≤ s.used w) :
    (List.range bytes).map
      (fun i => s.buffer_ ((s.readPosition_ % s.capacity_ + i) % s.capacity_))
      = (s.queue w).take bytes := by
  unfold RingBuffer.queue
  rw [← List.map_take, List.take_range, Nat.min_eq_left hb]
  apply List.map_congr_left
  intro i hi
  rw [Nat.mod_add_mod]

/-- Effect on the abstract queue of advancing the read cursor: the queue
loses exactly that many bytes at the front. -/
theorem queue_read_char {w : Nat} {s : RingBuffer} (h : WF w s)
    (bytes : Nat) (hb : bytes ≤ s.used w) :
    RingBuffer.queue { s with readPosition_ := (s.readPosition_ + bytes) % 2 ^ w } w
      = (s.queue w).drop bytes := by
  have hcpos : 0 < s.capacity_ := h.capPos
  have hclt : s.capacity_ < 2 ^ w := h.capLt
  have huse : s.used w ≤ s.capacity_ := h.usedLe
  have hused : RingBuffer.used
      { s with readPosition_ := (s.readPosition_ + bytes) % 2 ^ w } w
      = s.used w - bytes := by
    show wsub w s.writePosition_ ((s.readPosition_ + bytes) % 2 ^ w) = s.used w - bytes
    apply wsub_char w _ _ _ (Nat.mod_lt _ (two_pow_pos w)) (by omega)
    rw [Nat.mod_add_mod, ← rp_add_used h]
    congr 1
    omega
  have hq2 : RingBuffer.queue
      { s with readPosition_ := (s.readPosition_ + bytes) % 2 ^ w } w
      = (List.range (s.used w - bytes)).map
          (fun i => s.buffer_ (((s.readPosition_ + bytes) % 2 ^ w + i) % s.capacity_)) := by
    simp only [RingBuffer.queue, hused]
  rw [hq2]
  apply List.ext_getElem
  · simp only [List.length_map, List.length_range, List.length_drop, queue_length]
  · intro i hl hr
    have hi : i < s.used w - bytes := by simpa using hl
    simp only [List.getElem_map, List.getElem_range]
    rw [List.getElem_drop]
    rw [queue_getElem s w (bytes + i) (by rw [queue_length]; omega)]
    rw [add_mod_mod_of_dvd _ _ _ _ h.capDvd]
    congr 2
    omega

-- MARK: operation specifications

theorem freeSpace_eq {w : Nat} {s : RingBuffer} (h : WF w s) :
    s.freeSpace w = s.capacity_ - s.used w :=
  wsub_of_le w s.capacity_ (s.used w) h.usedLe h.capLt

theorem availableBytes_eq_used (s : RingBuffer) (w : Nat) :
    s.availableBytes w = s.used w := rfl

theorem mask_mod {w : Nat} {s : RingBuffer} (h : WF w s) (x : Nat) :
    x &&& s.capacityMask_ = x % s.capacity_ := by
  obtain ⟨k, hk⟩ := h.capPow
  rw [h.maskEq, hk, Nat.and_pow_two_sub_one_eq_mod]

theorem used_after_add {w : Nat} {s : RingBuffer} (h : WF w s) (b : Nat)
    (hb : s.used w + b ≤ s.capacity_) :
    wsub w ((s.writePosition_ + b) % 2 ^ w) s.readPosition_ = s.used w + b := by
  apply wsub_char w _ _ _ h.rpLt (by have := h.capLt; omega)
  rw [← rp_add_used h, Nat.mod_add_mod, Nat.add_assoc]

theorem used_after_sub {w : Nat} {s : RingBuffer} (h : WF w s) (b : Nat)
    (hb : b ≤ s.used w) :
    wsub w s.writePosition_ ((s.readPosition_ + b) % 2 ^ w) = s.used w - b := by
  have hclt := h.capLt
  have huse : s.used w ≤ s.capacity_ := h.usedLe
  apply wsub_char w _ _ _ (Nat.mod_lt _ (two_pow_pos w)) (by omega)
  rw [Nat.mod_add_mod, ← rp_add_used h]
  congr 1
  omega

/-- Full characterization of RingBuffer::write on a well-formed state with
valid arguments: the returned item count, the effect on the abstract queue,
and the frame conditions. -/
theorem write_spec (w : Nat) (s : RingBuffer) (data : List Byte) (isz cnt : Nat)
    (ap : Bool) (h : WF w s) (hisz : 0 < isz) (hcnt : 0 < cnt) :
    (s.write w (some data) isz cnt ap).2
      = (if s.freeSpace w / isz = 0 ∨ (s.freeSpace w / isz < cnt ∧ ap = false) then 0
         else min (s.freeSpace w / isz) cnt)
    ∧ WF w (s.write w (some data) isz cnt ap).1
    ∧ (cnt * isz ≤ data.length →
        (s.write w (some data) isz cnt ap).1.queue w
          = s.queue w ++ data.take ((s.write w (some data) isz cnt ap).2 * isz))
    ∧ (s.write w (some data) isz cnt ap).1.used w
      = s.used w + (s.write w (some data) isz cnt ap).2 * isz
    ∧ (s.write w (some data) isz cnt ap).1.writePosition_
      = (s.writePosition_ + (s.write w (some data) isz cnt ap).2 * isz) % 2 ^ w
    ∧ (s.write w (some data) isz cnt ap).1.readPosition_ = s.readPosition_
    ∧ (s.write w (some data) isz cnt ap).1.capacity_ = s.capacity_
    ∧ (s.write w (some data) isz cnt ap).1.capacityMask_ = s.capacityMask_
    ∧ (s.write w (some data) isz cnt ap).1.allocated = s.allocated := by
  have hcapGe := h.capGe
  have hclt := h.capLt
  have husedLe := h.usedLe
  have hg1 : ¬(isz = 0 ∨ cnt = 0 ∨ s.capacity_ = 0) := by
    push_neg
    refine ⟨by omega, by omega, by omega⟩
  have hfs : wsub w s.capacity_ (wsub w s.writePosition_ s.readPosition_)
      = s.freeSpace w := rfl
  by_cases hcond : s.freeSpace w / isz = 0 ∨ (s.freeSpace w / isz < cnt ∧ ap = false)
  · have hw : s.write w (some data) isz cnt ap = (s, 0) := by
      unfold RingBuffer.write
      dsimp only
      rw [if_neg hg1]
      rw [hfs]
      rw [if_pos hcond]
    rw [hw, if_pos hcond]
    refine ⟨rfl, h, by simp, by simp, ?_, rfl, rfl, rfl, rfl⟩
    simp [Nat.mod_eq_of_lt h.wpLt]
  · have hfree_le : s.freeSpace w ≤ s.capacity_ - s.used w := le_of_eq (freeSpace_eq h)
    set k := min (s.freeSpace w / isz) cnt with hkdef
    have hk_free : k * isz ≤ s.freeSpace w :=
      le_trans (Nat.mul_le_mul_right isz (min_le_left _ _)) (Nat.div_mul_le_self _ _)
    have hk_cap : s.used w + k * isz ≤ s.capacity_ := by
      have huse2 : s.used w ≤ s.capacity_ := h.usedLe
      rw [freeSpace_eq h] at hk_free
      omega
    have hbytes_lt : k * isz < 2 ^ w := by omega
    have hmod_bytes : k * isz % 2 ^ w = k * isz := Nat.mod_eq_of_lt hbytes_lt
    have hwidx_lt : s.writePosition_ % s.capacity_ < s.capacity_ :=
      Nat.mod_lt _ h.capPos
    have hend : wsub w s.capacity_ (s.writePosition_ % s.capacity_)
        = s.capacity_ - s.writePosition_ % s.capacity_ :=
      wsub_of_le w _ _ (le_of_lt hwidx_lt) hclt
    have hw : s.write w (some data) isz cnt ap
        = ({ s with
              buffer_ :=
                (if k * isz ≤ s.capacity_ - s.writePosition_ % s.capacity_ then
                  memcpyAt s.buffer_ (s.writePosition_ % s.capacity_) (data.take (k * isz))
                else
                  memcpyAt (memcpyAt s.buffer_ (s.writePosition_ % s.capacity_)
                      (data.take (s.capacity_ - s.writePosition_ % s.capacity_))) 0
                    ((data.drop (s.capacity_ - s.writePosition_ % s.capacity_)).take
                      (k * isz - (s.capacity_ - s.writePosition_ % s.capacity_)))),
              writePosition_ := (s.writePosition_ + k * isz) % 2 ^ w }, k) := by
      unfold RingBuffer.write
      dsimp only
      rw [if_neg hg1]
      rw [hfs]
      rw [if_neg hcond]
      rw [mask_mod h, hmod_bytes, hend]
    have hused2 : wsub w ((s.writePosition_ + k * isz) % 2 ^ w) s.readPosition_
        = s.used w + k * isz := used_after_add h (k * isz) hk_cap
    have hwf2 : WF w (s.write w (some data) isz cnt ap).1 := by
      rw [hw]
      exact {
        isAlloc := h.isAlloc
        capPow := h.capPow
        capGe := h.capGe
        capBound := h.capBound
        maskEq := h.maskEq
        wpLt := Nat.mod_lt _ (two_pow_pos w)
        rpLt := h.rpLt
        usedLe := by
          show wsub w ((s.writePosition_ + k * isz) % 2 ^ w) s.readPosition_ ≤ s.capacity_
          rw [hused2]
          exact hk_cap }
    have hqueue : cnt * isz ≤ data.length →
        (s.write w (some data) isz cnt ap).1.queue w
          = s.queue w ++ data.take (k * isz) := by
      intro hdata
      have hk_len : k * isz ≤ data.length :=
        le_trans (Nat.mul_le_mul_right isz (min_le_right _ _)) hdata
      rw [hw]
      apply queue_write_char h _ (k * isz) data hk_cap hk_len
      · intro i hi
        exact ringWrite_at s.buffer_ s.capacity_ (s.writePosition_ % s.capacity_)
          (k * isz) data hwidx_lt (by omega) hk_len i hi
      · intro j hj
        exact ringWrite_frame s.buffer_ s.capacity_ (s.writePosition_ % s.capacity_)
          (k * isz) data hwidx_lt (by omega) hk_len j hj
    have hused3 : (s.write w (some data) isz cnt ap).1.used w = s.used w + k * isz := by
      rw [hw]
      exact hused2
    have hcnt2 : (s.write w (some data) isz cnt ap).2 = k := by rw [hw]
    rw [if_neg hcond]
    rw [hcnt2]
    refine ⟨rfl, hwf2, hqueue, hused3, ?_, ?_, ?_, ?_, ?_⟩ <;> rw [hw]

theorem wsub_self (w a : Nat) (ha : a < 2 ^ w) : wsub w a a = 0 := by
  unfold wsub
  rw [Nat.mod_eq_of_lt ha]
  have h1 : a + (2 ^ w - a) = 2 ^ w := by omega
  rw [h1, Nat.mod_self]

/-- Full characterization of RingBuffer::read on a well-formed state with
valid arguments: the returned item count, the bytes delivered, the effect
on the abstract queue, and the frame conditions. -/
theorem read_spec (w : Nat) (s : RingBuffer) (isz cnt : Nat) (ap : Bool)
    (h : WF w s) (hisz : 0 < isz) (hcnt : 0 < cnt) :
    (s.read w false isz cnt ap).2.1
      = (if s.used w / isz = 0 ∨ (s.used w / isz < cnt ∧ ap = false) then 0
         else min (s.used w / isz) cnt)
    ∧ WF w (s.read w false isz cnt ap).1
    ∧ (s.read w false isz cnt ap).2.2
      = (s.queue w).take ((s.read w false isz cnt ap).2.1 * isz)
    ∧ (s.read w false isz cnt ap).1.queue w
      = (s.queue w).drop ((s.read w false isz cnt ap).2.1 * isz)
    ∧ (s.read w false isz cnt ap).1.used w
      = s.used w - (s.read w false isz cnt ap).2.1 * isz
    ∧ (s.read w false isz cnt ap).1.readPosition_
      = (s.readPosition_ + (s.read w false isz cnt ap).2.1 * isz) % 2 ^ w
    ∧ (s.read w false isz cnt ap).1.writePosition_ = s.writePosition_
    ∧ (s.read w false isz cnt ap).1.buffer_ = s.buffer_
    ∧ (s.read w false isz cnt ap).1.capacity_ = s.capacity_
    ∧ (s.read w false isz cnt ap).1.capacityMask_ = s.capacityMask_
    ∧ (s.read w false isz cnt ap).1.allocated = s.allocated := by
  have hcapGe := h.capGe
  have hclt := h.capLt
  have huse2 : s.used w ≤ s.capacity_ := h.usedLe
  have hg1 : ¬(false = true ∨ isz = 0 ∨ cnt = 0 ∨ s.capacity_ = 0) := by
    push_neg
    refine ⟨by simp, by omega, by omega, by omega⟩
  have hu : wsub w s.writePosition_ s.readPosition_ = s.used w := rfl
  by_cases hcond : s.used w / isz = 0 ∨ (s.used w / isz < cnt ∧ ap = false)
  · have hw : s.read w false isz cnt ap = (s, 0, []) := by
      unfold RingBuffer.read
      dsimp only
      rw [if_neg hg1, hu, if_pos hcond]
    rw [hw, if_pos hcond]
    refine ⟨rfl, h, by simp, by simp, by simp, ?_, rfl, rfl, rfl, rfl, rfl⟩
    simp [Nat.mod_eq_of_lt h.rpLt]
  · set k := min (s.used w / isz) cnt with hkdef
    have hk_used : k * isz ≤ s.used w :=
      le_trans (Nat.mul_le_mul_right isz (min_le_left _ _)) (Nat.div_mul_le_self _ _)
    have hbytes_lt : k * isz < 2 ^ w := by omega
    have hmod_bytes : k * isz % 2 ^ w = k * isz := Nat.mod_eq_of_lt hbytes_lt
    have hridx_lt : s.readPosition_ % s.capacity_ < s.capacity_ :=
      Nat.mod_lt _ h.capPos
    have hend : wsub w s.capacity_ (s.readPosition_ % s.capacity_)
        = s.capacity_ - s.readPosition_ % s.capacity_ :=
      wsub_of_le w _ _ (le_of_lt hridx_lt) hclt
    have hw : s.read w false isz cnt ap
        = ({ s with readPosition_ := (s.readPosition_ + k * isz) % 2 ^ w }, k,
            (if k * isz ≤ s.capacity_ - s.readPosition_ % s.capacity_ then
              readBytes s.buffer_ (s.readPosition_ % s.capacity_) (k * isz)
            else
              readBytes s.buffer_ (s.readPosition_ % s.capacity_)
                  (s.capacity_ - s.readPosition_ % s.capacity_)
                ++ readBytes s.buffer_ 0
                  (k * isz - (s.capacity_ - s.readPosition_ % s.capacity_)))) := by
      unfold RingBuffer.read
      dsimp only
      rw [if_neg hg1, hu, if_neg hcond]
      rw [mask_mod h, hmod_bytes, hend]
    have hout : (s.read w false isz cnt ap).2.2 = (s.queue w).take (k * isz) := by
      rw [hw]
      show (if k * isz ≤ s.capacity_ - s.readPosition_ % s.capacity_ then _ else _)
          = (s.queue w).take (k * isz)
      rw [ringRead_eq s.buffer_ s.capacity_ (s.readPosition_ % s.capacity_) (k * isz)
        hridx_lt (by omega)]
      exact ringRead_takes h (k * isz) hk_used
    have hqueue : (s.read w false isz cnt ap).1.queue w
        = (s.queue w).drop (k * isz) := by
      rw [hw]
      exact queue_read_char h (k * isz) hk_used
    have hused3 : (s.read w false isz cnt ap).1.used w = s.used w - k * isz := by
      rw [hw]
      exact used_after_sub h (k * isz) hk_used
    have hwf2 : WF w (s.read w false isz cnt ap).1 := by
      rw [hw]
      exact {
        isAlloc := h.isAlloc
        capPow := h.capPow
        capGe := h.capGe
        capBound := h.capBound
        maskEq := h.maskEq
        wpLt := h.wpLt
        rpLt := Nat.mod_lt _ (two_pow_pos w)
        usedLe := by
          show wsub w s.writePosition_ ((s.readPosition_ + k * isz) % 2 ^ w)
              ≤ s.capacity_
          rw [used_after_sub h (k * isz) hk_used]
          omega }
    have hcnt2 : (s.read w false isz cnt ap).2.1 = k := by rw [hw]
    rw [if_neg hcond, hcnt2]
    refine ⟨rfl, hwf2, hout, hqueue, hused3, ?_, ?_, ?_, ?_, ?_, ?_⟩ <;> rw [hw]

/-- Full characterization of RingBuffer::skip (the overload with the
partial flag) on a well-formed state with valid arguments. -/
theorem skip_spec (w : Nat) (s : RingBuffer) (isz cnt : Nat) (ap : Bool)
    (h : WF w s) (hisz : 0 < isz) (hcnt : 0 < cnt) :
    (s.skip w isz cnt ap).2
      = (if s.used w / isz = 0 ∨ (s.used w / isz < cnt ∧ ap = false) then 0
         else min (s.used w / isz) cnt)
    ∧ WF w (s.skip w isz cnt ap).1
    ∧ (s.skip w isz cnt ap).1.queue w
      = (s.queue w).drop ((s.skip w isz cnt ap).2 * isz)
    ∧ (s.skip w isz cnt ap).1.used w = s.used w - (s.skip w isz cnt ap).2 * isz
    ∧ (s.skip w isz cnt ap).1.readPosition_
      = (s.readPosition_ + (s.skip w isz cnt ap).2 * isz) % 2 ^ w
    ∧ (s.skip w isz cnt ap).1.writePosition_ = s.writePosition_
    ∧ (s.skip w isz cnt ap).1.buffer_ = s.buffer_
    ∧ (s.skip w isz cnt ap).1.capacity_ = s.capacity_
    ∧ (s.skip w isz cnt ap).1.capacityMask_ = s.capacityMask_
    ∧ (s.skip w isz cnt ap).1.allocated = s.allocated := by
  have hcapGe := h.capGe
  have hclt := h.capLt
  have huse2 : s.used w ≤ s.capacity_ := h.usedLe
  have hg1 : ¬(isz = 0 ∨ cnt = 0 ∨ s.capacity_ = 0) := by
    push_neg
    refine ⟨by omega, by omega, by omega⟩
  have hu : wsub w s.writePosition_ s.readPosition_ = s.used w := rfl
  by_cases hcond : s.used w / isz = 0 ∨ (s.used w / isz < cnt ∧ ap = false)
  · have hw : s.skip w isz cnt ap = (s, 0) := by
      unfold RingBuffer.skip
      dsimp only
      rw [if_neg hg1, hu, if_pos hcond]
    rw [hw, if_pos hcond]
    refine ⟨rfl, h, by simp, by simp, ?_, rfl, rfl, rfl, rfl, rfl⟩
    simp [Nat.mod_eq_of_lt h.rpLt]
  · set k := min (s.used w / isz) cnt with hkdef
    have hk_used : k * isz ≤ s.used w :=
      le_trans (Nat.mul_le_mul_right isz (min_le_left _ _)) (Nat.div_mul_le_self _ _)
    have hbytes_lt : k * isz < 2 ^ w := by omega
    have hmod_bytes : k * isz % 2 ^ w = k * isz := Nat.mod_eq_of_lt hbytes_lt
    have hw : s.skip w isz cnt ap
        = ({ s with readPosition_ := (s.readPosition_ + k * isz) % 2 ^ w }, k) := by
      unfold RingBuffer.skip
      dsimp only
      rw [if_neg hg1, hu, if_neg hcond, hmod_bytes]
    have hqueue : (s.skip w isz cnt ap).1.queue w = (s.queue w).drop (k * isz) := by
      rw [hw]
      exact queue_read_char h (k * isz) hk_used
    have hused3 : (s.skip w isz cnt ap).1.used w = s.used w - k * isz := by
      rw [hw]
      exact used_after_sub h (k * isz) hk_used
    have hwf2 : WF w (s.skip w isz cnt ap).1 := by
      rw [hw]
      exact {
        isAlloc := h.isAlloc
        capPow := h.capPow
        capGe := h.capGe
        capBound := h.capBound
        maskEq := h.maskEq
        wpLt := h.wpLt
        rpLt := Nat.mod_lt _ (two_pow_pos w)
        usedLe := by
          show wsub w s.writePosition_ ((s.readPosition_ + k * isz) % 2 ^ w)
              ≤ s.capacity_
          rw [used_after_sub h (k * isz) hk_used]
          omega }
    have hcnt2 : (s.skip w isz cnt ap).2 = k := by rw [hw]
    rw [if_neg hcond, hcnt2]
    refine ⟨rfl, hwf2, hqueue, hused3, ?_, ?_, ?_, ?_, ?_, ?_⟩ <;> rw [hw]

/-- Characterization of RingBuffer::drain: returns the number of used
bytes, empties the queue, moves only the read cursor. -/
theorem drain_spec (w : Nat) (s : RingBuffer) (h : WF w s) :
    (s.drain w).2 = s.used w
    ∧ (s.drain w).1.queue w = []
    ∧ WF w (s.drain w).1
    ∧ (s.drain w).1.writePosition_ = s.writePosition_
    ∧ (s.drain w).1.buffer_ = s.buffer_
    ∧ (s.drain w).1.capacity_ = s.capacity_
    ∧ (s.drain w).1.capacityMask_ = s.capacityMask_
    ∧ (s.drain w).1.allocated = s.allocated := by
  have hcapGe := h.capGe
  have hcap0 : ¬s.capacity_ = 0 := by omega
  have hu : wsub w s.writePosition_ s.readPosition_ = s.used w := rfl
  by_cases hused0 : s.used w = 0
  · have hw : s.drain w = (s, 0) := by
      unfold RingBuffer.drain
      dsimp only
      rw [if_neg hcap0, hu, if_pos hused0]
    rw [hw]
    refine ⟨hused0.symm, ?_, h, rfl, rfl, rfl, rfl, rfl⟩
    apply List.eq_nil_of_length_eq_zero
    rw [queue_length, hused0]
  · have hw : s.drain w = ({ s with readPosition_ := s.writePosition_ }, s.used w) := by
      unfold RingBuffer.drain
      dsimp only
      rw [if_neg hcap0, hu, if_neg hused0]
    rw [hw]
    have hself : wsub w s.writePosition_ s.writePosition_ = 0 :=
      wsub_self w s.writePosition_ h.wpLt
    refine ⟨rfl, ?_, ?_, rfl, rfl, rfl, rfl, rfl⟩
    · apply List.eq_nil_of_length_eq_zero
      rw [queue_length]
      exact hself
    · exact {
        isAlloc := h.isAlloc
        capPow := h.capPow
        capGe := h.capGe
        capBound := h.capBound
        maskEq := h.maskEq
        wpLt := h.wpLt
        rpLt := h.wpLt
        usedLe := by
          show wsub w s.writePosition_ s.writePosition_ ≤ s.capacity_
          rw [hself]
          omega }

/-- Characterization of RingBuffer::peek: succeeds exactly when the
requested whole items are available, and then delivers the front of the
queue; the state is unchanged by construction since the source method is
const. -/
theorem peek_spec (w : Nat) (s : RingBuffer) (isz cnt : Nat)
    (h : WF w s) (hisz : 0 < isz) (hcnt : 0 < cnt) :
    ((s.peek w false isz cnt).1 = true ↔ cnt ≤ s.used w / isz)
    ∧ (cnt ≤ s.used w / isz →
        (s.peek w false isz cnt).2 = (s.queue w).take (cnt * isz)) := by
  have hcapGe := h.capGe
  have hclt := h.capLt
  have huse2 : s.used w ≤ s.capacity_ := h.usedLe
  have hg1 : ¬(false = true ∨ isz = 0 ∨ cnt = 0 ∨ s.capacity_ = 0) := by
    push_neg
    refine ⟨by simp, by omega, by omega, by omega⟩
  have hu : wsub w s.writePosition_ s.readPosition_ = s.used w := rfl
  by_cases hcond : s.used w / isz < cnt
  · have hw : s.peek w false isz cnt = (false, []) := by
      unfold RingBuffer.peek
      rw [if_neg hg1, hu, if_pos hcond]
    rw [hw]
    constructor
    · constructor
      · intro hcon
        exact absurd hcon (by simp)
      · intro hle
        omega
    · intro hle
      omega
  · push_neg at hcond
    have hbytes_used : cnt * isz ≤ s.used w :=
      le_trans (Nat.mul_le_mul_right isz hcond) (Nat.div_mul_le_self _ _)
    have hbytes_lt : cnt * isz < 2 ^ w := by omega
    have hmod_bytes : cnt * isz % 2 ^ w = cnt * isz := Nat.mod_eq_of_lt hbytes_lt
    have hridx_lt : s.readPosition_ % s.capacity_ < s.capacity_ :=
      Nat.mod_lt _ h.capPos
    have hend : wsub w s.capacity_ (s.readPosition_ % s.capacity_)
        = s.capacity_ - s.readPosition_ % s.capacity_ :=
      wsub_of_le w _ _ (le_of_lt hridx_lt) hclt
    have hw : s.peek w false isz cnt
        = (true,
            (if cnt * isz ≤ s.capacity_ - s.readPosition_ % s.capacity_ then
              readBytes s.buffer_ (s.readPosition_ % s.capacity_) (cnt * isz)
            else
              readBytes s.buffer_ (s.readPosition_ % s.capacity_)
                  (s.capacity_ - s.readPosition_ % s.capacity_)
                ++ readBytes s.buffer_ 0
                  (cnt * isz - (s.capacity_ - s.readPosition_ % s.capacity_)))) := by
      unfold RingBuffer.peek
      dsimp only
      rw [if_neg hg1, hu, if_neg (by omega)]
      rw [mask_mod h, hmod_bytes, hend]
    rw [hw]
    refine ⟨by simp [hcond], ?_⟩
    intro _
    show (if cnt * isz ≤ s.capacity_ - s.readPosition_ % s.capacity_ then _ else _)
        = (s.queue w).take (cnt * isz)
    rw [ringRead_eq s.buffer_ s.capacity_ (s.readPosition_ % s.capacity_) (cnt * isz)
      hridx_lt (by omega)]
    exact ringRead_takes h (cnt * isz) hbytes_used

/-- Characterization of RingBuffer::commitWrite under its documented
precondition: the used count grows by the committed byte count and only
the write cursor moves. -/
theorem commitWrite_spec (w : Nat) (s : RingBuffer) (cnt : Nat)
    (h : WF w s) (hc : cnt ≤ s.freeSpace w) :
    WF w (s.commitWrite w cnt)
    ∧ (s.commitWrite w cnt).used w = s.used w + cnt
    ∧ (s.commitWrite w cnt).writePosition_ = (s.writePosition_ + cnt) % 2 ^ w
    ∧ (s.commitWrite w cnt).readPosition_ = s.readPosition_
    ∧ (s.commitWrite w cnt).buffer_ = s.buffer_
    ∧ (s.commitWrite w cnt).capacity_ = s.capacity_
    ∧ (s.commitWrite w cnt).capacityMask_ = s.capacityMask_
    ∧ (s.commitWrite w cnt).allocated = s.allocated := by
  have huse2 : s.used w ≤ s.capacity_ := h.usedLe
  rw [freeSpace_eq h] at hc
  have hfit : s.used w + cnt ≤ s.capacity_ := by omega
  have hused2 : (s.commitWrite w cnt).used w = s.used w + cnt :=
    used_after_add h cnt hfit
  refine ⟨?_, hused2, rfl, rfl, rfl, rfl, rfl, rfl⟩
  exact {
    isAlloc := h.isAlloc
    capPow := h.capPow
    capGe := h.capGe
    capBound := h.capBound
    maskEq := h.maskEq
    wpLt := Nat.mod_lt _ (two_pow_pos w)
    rpLt := h.rpLt
    usedLe := by
      show (s.commitWrite w cnt).used w ≤ s.capacity_
      rw [hused2]
      exact hfit }

/-- Characterization of RingBuffer::commitRead under its documented
precondition: the used count shrinks by the committed byte count, the
queue loses that many front bytes, and only the read cursor moves. -/
theorem commitRead_spec (w : Nat) (s : RingBuffer) (cnt : Nat)
    (h : WF w s) (hc : cnt ≤ s.availableBytes w) :
    WF w (s.commitRead w cnt)
    ∧ (s.commitRead w cnt).used w = s.used w - cnt
    ∧ (s.commitRead w cnt).queue w = (s.queue w).drop cnt
    ∧ (s.commitRead w cnt).readPosition_ = (s.readPosition_ + cnt) % 2 ^ w
    ∧ (s.commitRead w cnt).writePosition_ = s.writePosition_
    ∧ (s.commitRead w cnt).buffer_ = s.buffer_
    ∧ (s.commitRead w cnt).capacity_ = s.capacity_
    ∧ (s.commitRead w cnt).capacityMask_ = s.capacityMask_
    ∧ (s.commitRead w cnt).allocated = s.allocated := by
  have huse2 : s.used w ≤ s.capacity_ := h.usedLe
  have hc2 : cnt ≤ s.used w := hc
  have hused2 : (s.commitRead w cnt).used w = s.used w - cnt :=
    used_after_sub h cnt hc2
  refine ⟨?_, hused2, queue_read_char h cnt hc2, rfl, rfl, rfl, rfl, rfl, rfl⟩
  exact {
    isAlloc := h.isAlloc
    capPow := h.capPow
    capGe := h.capGe
    capBound := h.capBound
    maskEq := h.maskEq
    wpLt := h.wpLt
    rpLt := Nat.mod_lt _ (two_pow_pos w)
    usedLe := by
      show (s.commitRead w cnt).used w ≤ s.capacity_
      rw [hused2]
      omega }

-- MARK: allocation

theorem maxCapacity_eq (w : Nat) : RingBuffer.maxCapacity w = 2 ^ (w - 1) := by
  unfold RingBuffer.maxCapacity
  exact Nat.one_shiftLeft (w - 1)

theorem bitWidthAux_spec (fuel : Nat) : ∀ n, n ≤ fuel →
    n < 2 ^ bitWidthAux fuel n ∧ (∀ m, n < 2 ^ m → bitWidthAux fuel n ≤ m) := by
  induction fuel with
  | zero =>
    intro n hn
    have hn0 : n = 0 := by omega
    subst hn0
    exact ⟨by decide, fun m _ => Nat.zero_le m⟩
  | succ fuel ih =>
    intro n hn
    by_cases hn0 : n = 0
    · subst hn0
      have hz : bitWidthAux (fuel + 1) 0 = 0 := rfl
      rw [hz]
      exact ⟨by decide, fun m _ => Nat.zero_le m⟩
    · have hdiv : n / 2 ≤ fuel := by omega
      obtain ⟨ih1, ih2⟩ := ih (n / 2) hdiv
      have hrw : bitWidthAux (fuel + 1) n = bitWidthAux fuel (n / 2) + 1 := by
        show (if n = 0 then 0 else bitWidthAux fuel (n / 2) + 1)
            = bitWidthAux fuel (n / 2) + 1
        rw [if_neg hn0]
      rw [hrw]
      constructor
      · have hpow : 2 ^ (bitWidthAux fuel (n / 2) + 1)
            = 2 ^ bitWidthAux fuel (n / 2) * 2 := Nat.pow_succ 2 _
        omega
      · intro m hm
        have hm1 : 1 ≤ m := by
          by_contra hc
          push_neg at hc
          interval_cases m
          omega
        have hm2 : n / 2 < 2 ^ (m - 1) := by
          have hp : 2 ^ m = 2 ^ (m - 1) * 2 := by
            have he : m - 1 + 1 = m := by omega
            rw [← he, Nat.pow_succ, he]
          omega
        have := ih2 (m - 1) hm2
        omega

theorem bitWidth_lt (n : Nat) : n < 2 ^ bitWidth n :=
  (bitWidthAux_spec n n (le_refl n)).1

theorem bitWidth_min (n m : Nat) (h : n < 2 ^ m) : bitWidth n ≤ m :=
  (bitWidthAux_spec n n (le_refl n)).2 m h

theorem bitCeil_ge (n : Nat) : n ≤ bitCeil n := by
  unfold bitCeil
  split
  next h => omega
  next h =>
    have h1 : n - 1 < 2 ^ bitWidth (n - 1) := bitWidth_lt (n - 1)
    omega

theorem bitCeil_pow (n : Nat) (h : 2 ≤ n) : bitCeil n = 2 ^ bitWidth (n - 1) := by
  unfold bitCeil
  rw [if_neg (by omega)]

theorem bitCeil_le_pow (n j : Nat) (h2 : 2 ≤ n) (hj : n ≤ 2 ^ j) : bitCeil n ≤ 2 ^ j := by
  rw [bitCeil_pow n h2]
  have h1 : bitWidth (n - 1) ≤ j := bitWidth_min (n - 1) j (by omega)
  exact Nat.pow_le_pow_right (by omega) h1

/-- RingBuffer::allocate rejects a requested capacity outside the supported
range and leaves the state untouched. -/
theorem allocate_reject (w : Nat) (s : RingBuffer) (n : Nat) (mem : Option (Nat → Byte))
    (h : n < 2 ∨ 2 ^ (w - 1) < n) : s.allocate w n mem = (s, false) := by
  unfold RingBuffer.allocate
  rw [if_pos]
  rw [maxCapacity_eq]
  exact h.imp (fun h1 => h1) (fun h1 => h1)

/-- RingBuffer::allocate with an in-range request and a successful
underlying allocation: returns true, sets the capacity to the bit ceiling
of the request, the mask to capacity minus one, zeroes both cursors, and
establishes well-formedness; the resulting buffer is empty. -/
theorem allocate_ok (w : Nat) (s : RingBuffer) (n : Nat) (mem : Nat → Byte)
    (hn2 : 2 ≤ n) (hnmax : n ≤ 2 ^ (w - 1)) :
    (s.allocate w n (some mem)).2 = true
    ∧ (s.allocate w n (some mem)).1.capacity_ = bitCeil n
    ∧ (s.allocate w n (some mem)).1.capacityMask_ = bitCeil n - 1
    ∧ (s.allocate w n (some mem)).1.writePosition_ = 0
    ∧ (s.allocate w n (some mem)).1.readPosition_ = 0
    ∧ (s.allocate w n (some mem)).1.allocated = true
    ∧ WF w (s.allocate w n (some mem)).1
    ∧ (s.allocate w n (some mem)).1.used w = 0
    ∧ (s.allocate w n (some mem)).1.queue w = [] := by
  have hp : 2 ≤ 2 ^ (w - 1) := le_trans hn2 hnmax
  have hw1 : 1 ≤ w := by
    by_contra hcon
    push_neg at hcon
    interval_cases w
    simp at hp
  have hguard : ¬(n < RingBuffer.minCapacity ∨ RingBuffer.maxCapacity w < n) := by
    rw [maxCapacity_eq]
    unfold RingBuffer.minCapacity
    push_neg
    omega
  have hw : s.allocate w n (some mem)
      = ({ allocated := true, buffer_ := mem, capacity_ := bitCeil n,
           capacityMask_ := bitCeil n - 1, writePosition_ := 0,
           readPosition_ := 0 }, true) := by
    unfold RingBuffer.allocate
    rw [if_neg hguard]
  rw [hw]
  have hcap2 : 2 ≤ bitCeil n := le_trans hn2 (bitCeil_ge n)
  have hcapmax : bitCeil n ≤ 2 ^ (w - 1) := bitCeil_le_pow n (w - 1) hn2 hnmax
  have hbound : 2 * bitCeil n ≤ 2 ^ w := by
    have h2 : w - 1 + 1 = w := by omega
    have h1 : 2 * 2 ^ (w - 1) = 2 ^ w :=
      calc 2 * 2 ^ (w - 1) = 2 ^ (w - 1) * 2 := Nat.mul_comm _ _
        _ = 2 ^ (w - 1 + 1) := (Nat.pow_succ 2 (w - 1)).symm
        _ = 2 ^ w := by rw [h2]
    omega
  have hzero : wsub w 0 0 = 0 := wsub_self w 0 (two_pow_pos w)
  refine ⟨rfl, rfl, rfl, rfl, rfl, rfl, ?_, hzero, ?_⟩
  · exact {
      isAlloc := rfl
      capPow := ⟨bitWidth (n - 1), bitCeil_pow n hn2⟩
      capGe := hcap2
      capBound := hbound
      maskEq := rfl
      wpLt := two_pow_pos w
      rpLt := two_pow_pos w
      usedLe := by
        show wsub w 0 0 ≤ bitCeil n
        rw [hzero]
        omega }
  · apply List.eq_nil_of_length_eq_zero
    rw [queue_length]
    exact hzero

-- MARK: write vector and writeValues

/-- Shape of the write vector on a well-formed state: the back span starts
at offset zero, the two sizes sum to the free byte count, the front span
lies inside the region, the back span never reaches the front offset, a
nonempty back span means the front span ends exactly at the end of the
region, and with free space present the front span starts at the physical
write index. -/
theorem writeVector_spec {w : Nat} {s : RingBuffer} (h : WF w s) :
    (s.writeVector w).2.off = 0
    ∧ (s.writeVector w).1.size + (s.writeVector w).2.size = s.capacity_ - s.used w
    ∧ (s.writeVector w).1.off + (s.writeVector w).1.size ≤ s.capacity_
    ∧ (s.writeVector w).2.size ≤ (s.writeVector w).1.off
    ∧ (0 < (s.writeVector w).2.size →
        (s.writeVector w).1.off + (s.writeVector w).1.size = s.capacity_)
    ∧ (0 < s.capacity_ - s.used w →
        (s.writeVector w).1.off = s.writePosition_ % s.capacity_) := by
  have hclt := h.capLt
  have huse2 : s.used w ≤ s.capacity_ := h.usedLe
  have hu : wsub w s.writePosition_ s.readPosition_ = s.used w := rfl
  have hfree : wsub w s.capacity_ (s.used w) = s.capacity_ - s.used w :=
    wsub_of_le w _ _ huse2 hclt
  have hwidx_lt : s.writePosition_ % s.capacity_ < s.capacity_ :=
    Nat.mod_lt _ h.capPos
  have hend : wsub w s.capacity_ (s.writePosition_ % s.capacity_)
      = s.capacity_ - s.writePosition_ % s.capacity_ :=
    wsub_of_le w _ _ (le_of_lt hwidx_lt) hclt
  by_cases hf0 : s.capacity_ - s.used w = 0
  · have hw : s.writeVector w = (⟨0, 0⟩, ⟨0, 0⟩) := by
      unfold RingBuffer.writeVector
      dsimp only
      rw [hu, hfree, if_pos hf0]
    rw [hw]
    refine ⟨rfl, ?_, ?_, ?_, ?_, ?_⟩
    · show 0 + 0 = s.capacity_ - s.used w
      omega
    · show 0 + 0 ≤ s.capacity_
      omega
    · show (0 : Nat) ≤ 0
      omega
    · intro hpos
      exact absurd hpos (lt_irrefl 0)
    · intro hpos
      exact absurd hpos (by omega)
  · by_cases hwrap : s.capacity_ - s.used w > s.capacity_ - s.writePosition_ % s.capacity_
    · have hw : s.writeVector w
          = (⟨s.writePosition_ % s.capacity_,
              s.capacity_ - s.writePosition_ % s.capacity_⟩,
             ⟨0, s.capacity_ - s.used w
                  - (s.capacity_ - s.writePosition_ % s.capacity_)⟩) := by
        unfold RingBuffer.writeVector
        dsimp only
        rw [hu, hfree, if_neg hf0, mask_mod h, hend, if_pos hwrap]
      rw [hw]
      refine ⟨rfl, ?_, ?_, ?_, ?_, fun _ => rfl⟩
      · show s.capacity_ - s.writePosition_ % s.capacity_
            + (s.capacity_ - s.used w - (s.capacity_ - s.writePosition_ % s.capacity_))
            = s.capacity_ - s.used w
        omega
      · show s.writePosition_ % s.capacity_
            + (s.capacity_ - s.writePosition_ % s.capacity_) ≤ s.capacity_
        omega
      · show s.capacity_ - s.used w - (s.capacity_ - s.writePosition_ % s.capacity_)
            ≤ s.writePosition_ % s.capacity_
        omega
      · intro hpos
        show s.writePosition_ % s.capacity_
            + (s.capacity_ - s.writePosition_ % s.capacity_) = s.capacity_
        omega
    · have hw : s.writeVector w
          = (⟨s.writePosition_ % s.capacity_, s.capacity_ - s.used w⟩, ⟨0, 0⟩) := by
        unfold RingBuffer.writeVector
        dsimp only
        rw [hu, hfree, if_neg hf0, mask_mod h, hend, if_neg hwrap]
      rw [hw]
      push_neg at hwrap
      refine ⟨rfl, ?_, ?_, ?_, ?_, fun _ => rfl⟩
      · show s.capacity_ - s.used w + 0 = s.capacity_ - s.used w
        omega
      · show s.writePosition_ % s.capacity_ + (s.capacity_ - s.used w) ≤ s.capacity_
        omega
      · show (0 : Nat) ≤ s.writePosition_ % s.capacity_
        omega
      · intro hpos
        exact absurd hpos (lt_irrefl 0)

/-- The writeArg copy places byte i of the argument at ring position
(front offset + cursor + i) mod c, for spans shaped like a write vector. -/
theorem writeArg_at (buf : Nat → Byte) (f0 fs bs c k : Nat) (a : List Byte)
    (hfb : f0 + fs ≤ c) (hbf : bs ≤ f0)
    (hwrap : 0 < bs → f0 + fs = c) (hk : k + a.length ≤ fs + bs)
    (i : Nat) (hi : i < a.length) :
    writeArg ⟨f0, fs⟩ ⟨0, bs⟩ buf k a ((f0 + (k + i)) % c) = a.getD i 0 := by
  unfold writeArg
  dsimp only
  by_cases hb1 : k + a.length ≤ fs
  · rw [if_pos hb1]
    have hlt : f0 + (k + i) < c := by omega
    rw [Nat.mod_eq_of_lt hlt]
    rw [memcpyAt_in _ _ _ _ (by omega) (by omega)]
    have he : f0 + (k + i) - (f0 + k) = i := by omega
    rw [he]
  · rw [if_neg hb1]
    push_neg at hb1
    by_cases hb2 : fs ≤ k
    · rw [if_pos hb2]
      have hbs : 0 < bs := by omega
      have hfsc := hwrap hbs
      have hpos : f0 + (k + i) = c + (k + i - fs) := by omega
      have hlt2 : k + i - fs < c := by omega
      rw [hpos, Nat.add_mod_left, Nat.mod_eq_of_lt hlt2]
      rw [memcpyAt_in _ _ _ _ (by omega) (by omega)]
      have he : k + i - fs - (0 + (k - fs)) = i := by omega
      rw [he]
    · rw [if_neg hb2]
      push_neg at hb2
      have htf : (a.take (fs - k)).length = fs - k := by
        rw [List.length_take]; omega
      have hdr : (a.drop (fs - k)).length = a.length - (fs - k) := by
        rw [List.length_drop]
      by_cases hitf : i < fs - k
      · have hlt : f0 + (k + i) < c := by omega
        rw [Nat.mod_eq_of_lt hlt]
        rw [memcpyAt_out _ 0 _ _ (Or.inr (by omega))]
        rw [memcpyAt_in _ _ _ _ (by omega) (by omega)]
        have he : f0 + (k + i) - (f0 + k) = i := by omega
        rw [he, getD_take_of_lt a (fs - k) i 0 hitf]
      · push_neg at hitf
        have hbs : 0 < bs := by omega
        have hfsc := hwrap hbs
        have hpos : f0 + (k + i) = c + (k + i - fs) := by omega
        have hlt2 : k + i - fs < c := by omega
        rw [hpos, Nat.add_mod_left, Nat.mod_eq_of_lt hlt2]
        rw [memcpyAt_in _ _ _ _ (by omega) (by omega)]
        have he : k + i - fs - 0 = i - (fs - k) := by omega
        rw [he, getD_drop]
        have he2 : fs - k + (i - (fs - k)) = i := by omega
        rw [he2]

/-- Ring positions not covered by the writeArg copy keep their previous
value. -/
theorem writeArg_frame (buf : Nat → Byte) (f0 fs bs c k : Nat) (a : List Byte)
    (hfb : f0 + fs ≤ c) (hbf : bs ≤ f0)
    (hwrap : 0 < bs → f0 + fs = c) (hk : k + a.length ≤ fs + bs)
    (j : Nat) (hj : ∀ i, i < a.length → (f0 + (k + i)) % c ≠ j) :
    writeArg ⟨f0, fs⟩ ⟨0, bs⟩ buf k a j = buf j := by
  unfold writeArg
  dsimp only
  by_cases hb1 : k + a.length ≤ fs
  · rw [if_pos hb1]
    apply memcpyAt_out
    by_contra hcon
    push_neg at hcon
    exact hj (j - (f0 + k)) (by omega)
      (by rw [Nat.mod_eq_of_lt (by omega)]; omega)
  · rw [if_neg hb1]
    push_neg at hb1
    by_cases hb2 : fs ≤ k
    · rw [if_pos hb2]
      apply memcpyAt_out
      by_contra hcon
      push_neg at hcon
      have hbs : 0 < bs := by omega
      have hfsc := hwrap hbs
      refine hj (j - (k - fs)) (by omega) ?_
      have h1 : f0 + (k + (j - (k - fs))) = c + j := by omega
      rw [h1, Nat.add_mod_left, Nat.mod_eq_of_lt (by omega)]
    · rw [if_neg hb2]
      push_neg at hb2
      have htf : (a.take (fs - k)).length = fs - k := by
        rw [List.length_take]; omega
      have hdr : (a.drop (fs - k)).length = a.length - (fs - k) := by
        rw [List.length_drop]
      have hout2 : j < 0 ∨ 0 + (a.drop (fs - k)).length ≤ j := by
        rw [hdr]
        by_contra hcon
        push_neg at hcon
        have hbs : 0 < bs := by omega
        have hfsc := hwrap hbs
        refine absurd ?_ (hj (fs - k + j) (by omega))
        have h1 : f0 + (k + (fs - k + j)) = c + j := by omega
        rw [h1, Nat.add_mod_left, Nat.mod_eq_of_lt (by omega)]
      rw [memcpyAt_out _ 0 _ _ hout2]
      apply memcpyAt_out
      rw [htf]
      by_contra hcon
      push_neg at hcon
      exact hj (j - (f0 + k)) (by omega)
        (by rw [Nat.mod_eq_of_lt (by omega)]; omega)

/-- The writeArg fold over the argument pack of writeValues places the
concatenated argument bytes at consecutive ring positions after the cursor
and leaves every other ring position unchanged. -/
theorem writeArgs_spec (f0 fs bs c : Nat)
    (hfb : f0 + fs ≤ c) (hbf : bs ≤ f0)
    (hwrap : 0 < bs → f0 + fs = c) (hcap : fs + bs ≤ c) :
    ∀ (args : List (List Byte)) (buf : Nat → Byte) (k : Nat),
    k + (args.map List.length).sum ≤ fs + bs →
    ((∀ i, i < (args.map List.length).sum →
      writeArgs ⟨f0, fs⟩ ⟨0, bs⟩ k buf args ((f0 + (k + i)) % c)
        = args.flatten.getD i 0)
    ∧ (∀ j, (∀ i, i < (args.map List.length).sum → (f0 + (k + i)) % c ≠ j) →
      writeArgs ⟨f0, fs⟩ ⟨0, bs⟩ k buf args j = buf j)) := by
  intro args
  induction args with
  | nil =>
    intro buf k hk
    constructor
    · intro i hi
      simp at hi
    · intro j _
      rfl
  | cons a rest ih =>
    intro buf k hk
    have hsum : (List.map List.length (a :: rest)).sum
        = a.length + (List.map List.length rest).sum := by simp
    rw [hsum] at hk
    have hrw : writeArgs ⟨f0, fs⟩ ⟨0, bs⟩ k buf (a :: rest)
        = writeArgs ⟨f0, fs⟩ ⟨0, bs⟩ (k + a.length)
            (writeArg ⟨f0, fs⟩ ⟨0, bs⟩ buf k a) rest := rfl
    have hk2 : (k + a.length) + (rest.map List.length).sum ≤ fs + bs := by omega
    obtain ⟨iha, ihf⟩ := ih (writeArg ⟨f0, fs⟩ ⟨0, bs⟩ buf k a) (k + a.length) hk2
    constructor
    · intro i hi
      rw [hsum] at hi
      rw [hrw]
      by_cases hia : i < a.length
      · rw [ihf _ ?_]
        · rw [writeArg_at buf f0 fs bs c k a hfb hbf hwrap (by omega) i hia]
          rw [List.flatten_cons, List.getD_append _ _ _ _ hia]
        · intro i2 hi2 heq
          have he1 : f0 + (k + a.length + i2) = f0 + k + (a.length + i2) := by omega
          have he2 : f0 + (k + i) = f0 + k + i := by omega
          rw [he1, he2] at heq
          have hcan : (a.length + i2) % c = i % c :=
            Nat.ModEq.add_left_cancel' (f0 + k) heq
          rw [Nat.mod_eq_of_lt (by omega), Nat.mod_eq_of_lt (by omega)] at hcan
          omega
      · push_neg at hia
        have hpos : f0 + (k + i) = f0 + (k + a.length + (i - a.length)) := by omega
        rw [hpos, iha _ (by omega)]
        rw [List.flatten_cons, List.getD_append_right a rest.flatten 0 i hia]
    · intro j hj
      rw [hsum] at hj
      rw [hrw, ihf _ ?_, writeArg_frame buf f0 fs bs c k a hfb hbf hwrap
        (by omega) j (fun i hi => hj i (by omega))]
      intro i2 hi2
      have he1 : f0 + (k + a.length + i2) = f0 + (k + (a.length + i2)) := by omega
      rw [he1]
      exact hj _ (by omega)

/-- RingBuffer::writeValues fails and leaves the state untouched when the
two writable segments cannot hold the total argument size. -/
theorem writeValues_fail (w : Nat) (s : RingBuffer) (args : List (List Byte))
    (h : WF w s) (hlt : s.capacity_ - s.used w < (args.map List.length).sum) :
    s.writeValues w args = (s, false) := by
  obtain ⟨_, hsum, _⟩ := writeVector_spec h
  unfold RingBuffer.writeValues
  dsimp only
  rw [if_pos]
  rw [hsum]
  exact hlt

/-- RingBuffer::writeValues succeeds when the writable space can hold the
total argument size: every argument is copied in declaration order, the
queue grows by exactly the concatenated argument bytes, the write cursor
advances by the total size, and nothing else changes. -/
theorem writeValues_ok (w : Nat) (s : RingBuffer) (args : List (List Byte))
    (h : WF w s) (hle : (args.map List.length).sum ≤ s.capacity_ - s.used w) :
    (s.writeValues w args).2 = true
    ∧ WF w (s.writeValues w args).1
    ∧ (s.writeValues w args).1.queue w = s.queue w ++ args.flatten
    ∧ (s.writeValues w args).1.used w = s.used w + (args.map List.length).sum
    ∧ (s.writeValues w args).1.writePosition_
      = (s.writePosition_ + (args.map List.length).sum) % 2 ^ w
    ∧ (s.writeValues w args).1.readPosition_ = s.readPosition_
    ∧ (s.writeValues w args).1.capacity_ = s.capacity_
    ∧ (s.writeValues w args).1.capacityMask_ = s.capacityMask_
    ∧ (s.writeValues w args).1.allocated = s.allocated := by
  obtain ⟨hoff2, hsum, hfb, hbf, hwrap, hfoff⟩ := writeVector_spec h
  have huse2 : s.used w ≤ s.capacity_ := h.usedLe
  have hclt := h.capLt
  set total := (args.map List.length).sum with htotal
  have hcap : (s.writeVector w).1.size + (s.writeVector w).2.size ≤ s.capacity_ := by
    omega
  have hcond : ¬((s.writeVector w).1.size + (s.writeVector w).2.size < total) := by
    omega
  have hfb2 : (s.writeVector w).1.off + (s.writeVector w).1.size ≤ s.capacity_ := hfb
  have hspans : (s.writeVector w).2 = (⟨0, (s.writeVector w).2.size⟩ : Span) := by
    cases hv : (s.writeVector w).2 with
    | mk o z =>
      have ho : o = 0 := by rw [hv] at hoff2; exact hoff2
      rw [ho]
  have hw : s.writeValues w args
      = (RingBuffer.commitWrite
          { s with
            buffer_ := writeArgs (s.writeVector w).1 ⟨0, (s.writeVector w).2.size⟩ 0 s.buffer_ args }
          w total, true) := by
    rw [← hspans]
    unfold RingBuffer.writeValues
    dsimp only
    rw [if_neg hcond]
  obtain ⟨hat, hfr⟩ := writeArgs_spec (s.writeVector w).1.off (s.writeVector w).1.size
    (s.writeVector w).2.size s.capacity_ hfb hbf hwrap hcap args s.buffer_ 0
    (by omega)
  have hflatlen : args.flatten.length = total := by
    rw [htotal, List.length_flatten]
  have hfit : s.used w + total ≤ s.capacity_ := by omega
  have hbuf2 : RingBuffer.commitWrite
      { s with
        buffer_ := writeArgs (s.writeVector w).1 ⟨0, (s.writeVector w).2.size⟩ 0 s.buffer_ args }
      w total
      = { s with
          buffer_ := writeArgs (s.writeVector w).1 ⟨0, (s.writeVector w).2.size⟩ 0 s.buffer_ args,
          writePosition_ := (s.writePosition_ + total) % 2 ^ w } := rfl
  have hused2 : wsub w ((s.writePosition_ + total) % 2 ^ w) s.readPosition_
      = s.used w + total := used_after_add h total hfit
  have hqueue : (s.writeValues w args).1.queue w = s.queue w ++ args.flatten := by
    rw [hw, hbuf2]
    have hq := queue_write_char h
      (writeArgs (s.writeVector w).1 ⟨0, (s.writeVector w).2.size⟩ 0 s.buffer_ args)
      total args.flatten hfit (le_of_eq hflatlen.symm) ?_ ?_
    · rw [hq, ← hflatlen, List.take_length]
    · intro i hi
      by_cases htot0 : total = 0
      · omega
      · have hoff : (s.writeVector w).1.off = s.writePosition_ % s.capacity_ :=
          hfoff (by omega)
        have h2 := hat i hi
        rw [← hoff]
        have he : (s.writeVector w).1.off + (0 + i)
            = (s.writeVector w).1.off + i := by omega
        rw [he] at h2
        exact h2
    · intro j hj
      by_cases htot0 : total = 0
      · exact hfr j (by intro i hi; omega)
      · have hoff : (s.writeVector w).1.off = s.writePosition_ % s.capacity_ :=
          hfoff (by omega)
        refine hfr j ?_
        intro i hi
        have he : (s.writeVector w).1.off + (0 + i)
            = (s.writeVector w).1.off + i := by omega
        rw [he, hoff]
        exact hj i hi
  have hwf2 : WF w (s.writeValues w args).1 := by
    rw [hw, hbuf2]
    exact {
      isAlloc := h.isAlloc
      capPow := h.capPow
      capGe := h.capGe
      capBound := h.capBound
      maskEq := h.maskEq
      wpLt := Nat.mod_lt _ (two_pow_pos w)
      rpLt := h.rpLt
      usedLe := by
        show wsub w ((s.writePosition_ + total) % 2 ^ w) s.readPosition_ ≤ s.capacity_
        rw [hused2]
        exact hfit }
  have hused3 : (s.writeValues w args).1.used w = s.used w + total := by
    rw [hw, hbuf2]
    exact hused2
  refine ⟨by rw [hw], hwf2, hqueue, hused3, ?_, ?_, ?_, ?_, ?_⟩ <;> rw [hw, hbuf2]

-- MARK: optional-returning readValue

/-- If the default constructor of the target type throws, the exception
propagates before the ring buffer is touched, so the state is returned
unchanged. -/
theorem readValueOpt_throw (w : Nat) (s : RingBuffer) (size : Nat) :
    s.readValueOpt w true size = (s, Except.error ()) := rfl

/-- With fewer than sizeof T bytes available the optional-returning read
returns an empty optional and the state is unchanged. -/
theorem readValueOpt_none (w : Nat) (s : RingBuffer) (size : Nat)
    (h : WF w s) (hsz : 0 < size) (hlt : s.used w < size) :
    s.readValueOpt w false size = (s, Except.ok none) := by
  have hcapGe := h.capGe
  have hg1 : ¬(false = true ∨ size = 0 ∨ 1 = 0 ∨ s.capacity_ = 0) := by
    push_neg
    refine ⟨by simp, by omega, by omega, by omega⟩
  have hu : wsub w s.writePosition_ s.readPosition_ = s.used w := rfl
  have hdz : s.used w / size = 0 := Nat.div_eq_of_lt hlt
  have hr : s.read w false size 1 false = (s, 0, []) := by
    unfold RingBuffer.read
    dsimp only
    rw [if_neg hg1, hu, if_pos (Or.inl hdz)]
  unfold RingBuffer.readValueOpt
  dsimp only
  rw [hr]
  rfl

/-- With at least sizeof T bytes available the optional-returning read
succeeds: it returns the front sizeof T queue bytes and drops exactly
those bytes from the queue. -/
theorem readValueOpt_some (w : Nat) (s : RingBuffer) (size : Nat)
    (h : WF w s) (hsz : 0 < size) (hge : size ≤ s.used w) :
    (s.readValueOpt w false size).2 = Except.ok (some ((s.queue w).take size))
    ∧ (s.readValueOpt w false size).1.queue w = (s.queue w).drop size
    ∧ (s.readValueOpt w false size).1.used w = s.used w - size
    ∧ WF w (s.readValueOpt w false size).1 := by
  have hone : 1 ≤ s.used w / size := (Nat.one_le_div_iff hsz).mpr hge
  obtain ⟨hk, hwf, hout, hq, hused, _⟩ :=
    read_spec w s size 1 false h hsz (by omega)
  have hk1 : (s.read w false size 1 false).2.1 = 1 := by
    rw [hk, if_neg (by omega)]
    omega
  have hrw : s.readValueOpt w false size
      = ((s.read w false size 1 false).1,
         Except.ok (some (s.read w false size 1 false).2.2)) := by
    unfold RingBuffer.readValueOpt
    dsimp only
    rw [if_pos hk1]
    rfl
  rw [hrw]
  rw [hk1, Nat.one_mul] at hout hq hused
  exact ⟨by rw [hout], hq, hused, hwf⟩

-- MARK: sequences of writes and reads

/-- FIFO invariant for operation sequences: the queue contents plus the
bytes accepted so far equal the bytes delivered so far plus the final
queue contents, and well-formedness is preserved. -/
theorem runOps_fifo (w : Nat) (ops : List Op) : ∀ (s : RingBuffer), WF w s →
    (∀ op ∈ ops, ValidOp op) →
    WF w (runOps w s ops).1
    ∧ s.queue w ++ (runOps w s ops).2.1
      = (runOps w s ops).2.2 ++ (runOps w s ops).1.queue w := by
  induction ops with
  | nil =>
    intro s hs _
    exact ⟨hs, by simp [runOps]⟩
  | cons op rest ih =>
    intro s hs hv
    cases op with
    | wr data isz cnt ap =>
      obtain ⟨hisz, hcnt, hlen⟩ := hv _ (List.mem_cons_self _ _)
      obtain ⟨_, hwf, hq, _⟩ := write_spec w s data isz cnt ap hs hisz hcnt
      obtain ⟨hwfr, hrest⟩ :=
        ih (s.write w (some data) isz cnt ap).1 hwf
          (fun op hop => hv op (List.mem_cons_of_mem _ hop))
      have hrw : runOps w s (Op.wr data isz cnt ap :: rest)
          = ((runOps w (s.write w (some data) isz cnt ap).1 rest).1,
             data.take ((s.write w (some data) isz cnt ap).2 * isz)
               ++ (runOps w (s.write w (some data) isz cnt ap).1 rest).2.1,
             (runOps w (s.write w (some data) isz cnt ap).1 rest).2.2) := rfl
      rw [hrw]
      refine ⟨hwfr, ?_⟩
      rw [← List.append_assoc, ← hq hlen, hrest]
    | rd isz cnt ap =>
      obtain ⟨hisz, hcnt⟩ := hv _ (List.mem_cons_self _ _)
      obtain ⟨_, hwf, hout, hq, _⟩ := read_spec w s isz cnt ap hs hisz hcnt
      obtain ⟨hwfr, hrest⟩ :=
        ih (s.read w false isz cnt ap).1 hwf
          (fun op hop => hv op (List.mem_cons_of_mem _ hop))
      have hrw : runOps w s (Op.rd isz cnt ap :: rest)
          = ((runOps w (s.read w false isz cnt ap).1 rest).1,
             (runOps w (s.read w false isz cnt ap).1 rest).2.1,
             (s.read w false isz cnt ap).2.2
               ++ (runOps w (s.read w false isz cnt ap).1 rest).2.2) := rfl
      rw [hrw]
      refine ⟨hwfr, ?_⟩
      have hsplit : s.queue w
          = (s.read w false isz cnt ap).2.2
            ++ (s.read w false isz cnt ap).1.queue w := by
        rw [hout, hq]
        exact (List.take_append_drop _ _).symm
      rw [hsplit, List.append_assoc, hrest, List.append_assoc]

-- MARK: reachable states and the cursor invariant

theorem zero_used (w : Nat) (s : RingBuffer) (hz : ZeroState s) : s.used w = 0 := by
  show wsub w s.writePosition_ s.readPosition_ = 0
  rw [hz.2.1, hz.2.2]
  exact wsub_self w 0 (two_pow_pos w)

theorem zero_freeSpace (w : Nat) (s : RingBuffer) (hz : ZeroState s) :
    s.freeSpace w = 0 := by
  show wsub w s.capacity_ (wsub w s.writePosition_ s.readPosition_) = 0
  rw [hz.1, hz.2.1, hz.2.2, wsub_self w 0 (two_pow_pos w)]
  exact wsub_self w 0 (two_pow_pos w)

theorem write_noop (w : Nat) (s : RingBuffer) (ptr : Option (List Byte))
    (isz cnt : Nat) (ap : Bool)
    (h : ptr = none ∨ isz = 0 ∨ cnt = 0 ∨ s.capacity_ = 0) :
    s.write w ptr isz cnt ap = (s, 0) := by
  match ptr with
  | none => rfl
  | some data =>
    have h2 : isz = 0 ∨ cnt = 0 ∨ s.capacity_ = 0 := by
      rcases h with h | h
      · exact absurd h (by simp)
      · exact h
    unfold RingBuffer.write
    dsimp only
    rw [if_pos h2]

theorem read_noop (w : Nat) (s : RingBuffer) (pn : Bool) (isz cnt : Nat) (ap : Bool)
    (h : pn = true ∨ isz = 0 ∨ cnt = 0 ∨ s.capacity_ = 0) :
    s.read w pn isz cnt ap = (s, 0, []) := by
  unfold RingBuffer.read
  dsimp only
  rw [if_pos h]

theorem skip_noop (w : Nat) (s : RingBuffer) (isz cnt : Nat) (ap : Bool)
    (h : isz = 0 ∨ cnt = 0 ∨ s.capacity_ = 0) :
    s.skip w isz cnt ap = (s, 0) := by
  unfold RingBuffer.skip
  dsimp only
  rw [if_pos h]

theorem drain_noop (w : Nat) (s : RingBuffer) (h : s.capacity_ = 0) :
    s.drain w = (s, 0) := by
  unfold RingBuffer.drain
  dsimp only
  rw [if_pos h]

theorem writeValues_zero (w : Nat) (s : RingBuffer) (args : List (List Byte))
    (hz : ZeroState s) (hpos : 0 < (args.map List.length).sum) :
    s.writeValues w args = (s, false) := by
  have hz0 : wsub w 0 0 = 0 := wsub_self w 0 (two_pow_pos w)
  have hwv : s.writeVector w = (⟨0, 0⟩, ⟨0, 0⟩) := by
    unfold RingBuffer.writeVector
    dsimp only
    rw [hz.1, hz.2.1, hz.2.2, hz0, hz0]
    rw [if_pos rfl]
  have hsz : (s.writeVector w).1.size + (s.writeVector w).2.size = 0 := by
    rw [hwv]
    rfl
  unfold RingBuffer.writeValues
  dsimp only
  rw [if_pos (by omega)]

theorem allocate_nomem (w : Nat) (s : RingBuffer) (n : Nat)
    (hn2 : 2 ≤ n) (hnmax : n ≤ 2 ^ (w - 1)) :
    s.allocate w n none = (s.deallocate, false) := by
  have hguard : ¬(n < RingBuffer.minCapacity ∨ RingBuffer.maxCapacity w < n) := by
    rw [maxCapacity_eq]
    unfold RingBuffer.minCapacity
    push_neg
    omega
  unfold RingBuffer.allocate
  rw [if_neg hguard]

theorem deallocate_inv (w : Nat) (s : RingBuffer) (h : Inv w s) :
    Inv w s.deallocate := by
  unfold RingBuffer.deallocate
  split
  · exact Or.inl ⟨rfl, rfl, rfl⟩
  · exact h

/-- Every reachable state satisfies the invariant: it is either the
unallocated zero state or a well-formed allocated buffer. -/
theorem reach_inv (w : Nat) (s : RingBuffer) (h : Reach w s) : Inv w s := by
  induction h with
  | init => exact Or.inl ⟨rfl, rfl, rfl⟩
  | alloc s n mem hr ih =>
    by_cases hg : n < 2 ∨ 2 ^ (w - 1) < n
    · rw [allocate_reject w s n mem hg]
      exact ih
    · push_neg at hg
      match mem with
      | none =>
        rw [allocate_nomem w s n (by omega) (by omega)]
        exact deallocate_inv w s ih
      | some m =>
        obtain ⟨_, _, _, _, _, _, hwf, _⟩ := allocate_ok w s n m (by omega) (by omega)
        exact Or.inr hwf
  | dealloc s hr ih => exact deallocate_inv w s ih
  | wr s ptr isz cnt ap hr ih =>
    rcases ih with hz | hwf
    · rw [write_noop w s ptr isz cnt ap (Or.inr (Or.inr (Or.inr hz.1)))]
      exact Or.inl hz
    · match ptr with
      | none => exact Or.inr hwf
      | some data =>
        by_cases hv : isz = 0 ∨ cnt = 0
        · rw [write_noop w s (some data) isz cnt ap (by tauto)]
          exact Or.inr hwf
        · push_neg at hv
          obtain ⟨_, hwf2, _⟩ :=
            write_spec w s data isz cnt ap hwf (by omega) (by omega)
          exact Or.inr hwf2
  | rd s pn isz cnt ap hr ih =>
    rcases ih with hz | hwf
    · rw [read_noop w s pn isz cnt ap (Or.inr (Or.inr (Or.inr hz.1)))]
      exact Or.inl hz
    · by_cases hv : pn = true ∨ isz = 0 ∨ cnt = 0
      · rw [read_noop w s pn isz cnt ap (by tauto)]
        exact Or.inr hwf
      · push_neg at hv
        have hpn : pn = false := by
          cases pn
          · rfl
          · exact absurd rfl hv.1
        rw [hpn]
        obtain ⟨_, hwf2, _⟩ :=
          read_spec w s isz cnt ap hwf (by omega) (by omega)
        exact Or.inr hwf2
  | sk s isz cnt ap hr ih =>
    rcases ih with hz | hwf
    · rw [skip_noop w s isz cnt ap (Or.inr (Or.inr hz.1))]
      exact Or.inl hz
    · by_cases hv : isz = 0 ∨ cnt = 0
      · rw [skip_noop w s isz cnt ap (by tauto)]
        exact Or.inr hwf
      · push_neg at hv
        obtain ⟨_, hwf2, _⟩ := skip_spec w s isz cnt ap hwf (by omega) (by omega)
        exact Or.inr hwf2
  | dr s hr ih =>
    rcases ih with hz | hwf
    · rw [drain_noop w s hz.1]
      exact Or.inl hz
    · obtain ⟨_, _, hwf2, _⟩ := drain_spec w s hwf
      exact Or.inr hwf2
  | cw s cnt hr hc ih =>
    rcases ih with hz | hwf
    · have hc0 : cnt = 0 := by
        rw [zero_freeSpace w s hz] at hc
        omega
      refine Or.inl ⟨hz.1, ?_, hz.2.2⟩
      show (s.writePosition_ + cnt) % 2 ^ w = 0
      rw [hc0, hz.2.1]
      simp
    · obtain ⟨hwf2, _⟩ := commitWrite_spec w s cnt hwf hc
      exact Or.inr hwf2
  | cr s cnt hr hc ih =>
    rcases ih with hz | hwf
    · have hc0 : cnt = 0 := by
        have hav : s.availableBytes w = 0 := zero_used w s hz
        omega
      refine Or.inl ⟨hz.1, hz.2.1, ?_⟩
      show (s.readPosition_ + cnt) % 2 ^ w = 0
      rw [hc0, hz.2.2]
      simp
    · obtain ⟨hwf2, _⟩ := commitRead_spec w s cnt hwf hc
      exact Or.inr hwf2
  | wv s args hr hne hsz ih =>
    have htot : 0 < (args.map List.length).sum := by
      match args with
      | [] => exact absurd rfl hne
      | a :: rest =>
        have ha : a ≠ ([] : List Byte) := hsz a (List.mem_cons_self _ _)
        have ha2 : 0 < a.length := List.length_pos.mpr ha
        simp
        omega
    rcases ih with hz | hwf
    · rw [writeValues_zero w s args hz htot]
      exact Or.inl hz
    · by_cases hle : (args.map List.length).sum ≤ s.capacity_ - s.used w
      · obtain ⟨_, hwf2, _⟩ := writeValues_ok w s args hwf hle
        exact Or.inr hwf2
      · push_neg at hle
        rw [writeValues_fail w s args hwf hle]
        exact Or.inr hwf

-- MARK: sample states for concrete instantiation

theorem sampleState_wf : WF 4 sampleState :=
  { isAlloc := rfl
    capPow := ⟨2, rfl⟩
    capGe := by decide
    capBound := by decide
    maskEq := rfl
    wpLt := by decide
    rpLt := by decide
    usedLe := by decide }

theorem sampleState3_wf : WF 4 sampleState3 :=
  { isAlloc := rfl
    capPow := ⟨2, rfl⟩
    capGe := by decide
    capBound := by decide
    maskEq := rfl
    wpLt := by decide
    rpLt := by decide
    usedLe := by decide }

-- MARK: claim theorems

/-- C1: for every sequence of write and read operations executed one at a
time on an allocated buffer starting empty, the concatenation of bytes
delivered by reads is a prefix of the concatenation of bytes accepted by
writes: the accepted bytes equal the delivered bytes followed by the bytes
still queued, so nothing is lost, duplicated, or reordered, including
across the wrap boundary. -/
theorem claim_C1_fifo_order (w : Nat) (s : RingBuffer) (ops : List Op)
    (h : WF w s) (hempty : s.queue w = []) (hv : ∀ op ∈ ops, ValidOp op) :
    (runOps w s ops).2.1
      = (runOps w s ops).2.2 ++ (runOps w s ops).1.queue w := by
  obtain ⟨_, heq⟩ := runOps_fifo w ops s h hv
  rw [hempty] at heq
  simpa using heq

theorem claim_C1_fifo_order_witness :
    (runOps 4 sampleState
        [Op.wr [1, 2, 3] 1 3 true, Op.rd 1 2 true, Op.wr [4, 5, 6] 1 3 true,
         Op.rd 1 4 true]).2.1
      = (runOps 4 sampleState
          [Op.wr [1, 2, 3] 1 3 true, Op.rd 1 2 true, Op.wr [4, 5, 6] 1 3 true,
           Op.rd 1 4 true]).2.2
        ++ (runOps 4 sampleState
            [Op.wr [1, 2, 3] 1 3 true, Op.rd 1 2 true, Op.wr [4, 5, 6] 1 3 true,
             Op.rd 1 4 true]).1.queue 4 :=
  claim_C1_fifo_order 4 sampleState
    [Op.wr [1, 2, 3] 1 3 true, Op.rd 1 2 true, Op.wr [4, 5, 6] 1 3 true,
     Op.rd 1 4 true]
    sampleState_wf (by decide) (by decide)

/-- C2: after a successful allocate the capacity method returns the full
allocated byte count, the exact power of two chosen by allocate (not that
count minus one), and starting from the empty state a single write of
capacity bytes with the partial flag off writes all of them, leaving the
buffer exactly full. -/
theorem claim_C2_full_capacity (w n : Nat) (mem : Nat → Byte) (data : List Byte)
    (hn2 : 2 ≤ n) (hnmax : n ≤ 2 ^ (w - 1)) :
    (RingBuffer.init.allocate w n (some mem)).1.capacity = bitCeil n
    ∧ ((RingBuffer.init.allocate w n (some mem)).1.write w (some data) 1
        (RingBuffer.init.allocate w n (some mem)).1.capacity false).2
      = (RingBuffer.init.allocate w n (some mem)).1.capacity
    ∧ ((RingBuffer.init.allocate w n (some mem)).1.write w (some data) 1
        (RingBuffer.init.allocate w n (some mem)).1.capacity false).1.isFull w
      = true := by
  obtain ⟨hret, hcap, hmask, hwp0, hrp0, halloc, hwf, hused0, hqnil⟩ :=
    allocate_ok w RingBuffer.init n mem hn2 hnmax
  have hcapm : (RingBuffer.init.allocate w n (some mem)).1.capacity = bitCeil n := hcap
  have hcpos : 2 ≤ bitCeil n := le_trans hn2 (bitCeil_ge n)
  obtain ⟨hk, hwf2, _, hused2, _, _, hcap2, _⟩ :=
    write_spec w (RingBuffer.init.allocate w n (some mem)).1 data 1
      ((RingBuffer.init.allocate w n (some mem)).1.capacity) false hwf
      (by omega) (by rw [hcapm]; omega)
  have hfree : (RingBuffer.init.allocate w n (some mem)).1.freeSpace w
      = bitCeil n := by
    rw [freeSpace_eq hwf, hused0, hcap]
    omega
  have hkval : ((RingBuffer.init.allocate w n (some mem)).1.write w (some data) 1
      ((RingBuffer.init.allocate w n (some mem)).1.capacity) false).2
      = bitCeil n := by
    rw [hk, hfree, Nat.div_one, hcapm]
    rw [if_neg (by push_neg; exact ⟨by omega, fun hlt => absurd hlt (by omega)⟩)]
    exact Nat.min_self _
  refine ⟨hcapm, by rw [hkval, hcapm], ?_⟩
  have husedv : ((RingBuffer.init.allocate w n (some mem)).1.write w (some data) 1
      ((RingBuffer.init.allocate w n (some mem)).1.capacity) false).1.used w
      = bitCeil n := by
    rw [hused2, hused0, hkval]
    omega
  unfold RingBuffer.isFull
  have h1 : wsub w ((RingBuffer.init.allocate w n (some mem)).1.write w (some data) 1
      ((RingBuffer.init.allocate w n (some mem)).1.capacity) false).1.writePosition_
      ((RingBuffer.init.allocate w n (some mem)).1.write w (some data) 1
      ((RingBuffer.init.allocate w n (some mem)).1.capacity) false).1.readPosition_
      = bitCeil n := husedv
  rw [h1, hcap2, hcap]
  simp

theorem claim_C2_full_capacity_witness :
    (RingBuffer.init.allocate 4 3 (some sampleBuf)).1.capacity = bitCeil 3
    ∧ ((RingBuffer.init.allocate 4 3 (some sampleBuf)).1.write 4 (some [7, 7, 7, 7]) 1
        (RingBuffer.init.allocate 4 3 (some sampleBuf)).1.capacity false).2
      = (RingBuffer.init.allocate 4 3 (some sampleBuf)).1.capacity
    ∧ ((RingBuffer.init.allocate 4 3 (some sampleBuf)).1.write 4 (some [7, 7, 7, 7]) 1
        (RingBuffer.init.allocate 4 3 (some sampleBuf)).1.capacity false).1.isFull 4
      = true :=
  claim_C2_full_capacity 4 3 sampleBuf [7, 7, 7, 7] (by decide) (by decide)

/-- C3: allocate returns false for every request below minCapacity or
above maxCapacity; for an in-range request with a successful underlying
allocation it returns true, the capacity is the smallest power of two not
below the request, and both cursors are zero so the buffer is empty. -/
theorem claim_C3_allocate (w n : Nat) (s : RingBuffer) (mem : Nat → Byte) :
    (RingBuffer.maxCapacity w = 2 ^ (w - 1))
    ∧ ((n < RingBuffer.minCapacity ∨ RingBuffer.maxCapacity w < n) →
        ∀ mo : Option (Nat → Byte), (s.allocate w n mo).2 = false)
    ∧ (RingBuffer.minCapacity ≤ n → n ≤ RingBuffer.maxCapacity w →
        (s.allocate w n (some mem)).2 = true
        ∧ (s.allocate w n (some mem)).1.capacity_ = bitCeil n
        ∧ n ≤ bitCeil n
        ∧ (∃ k, bitCeil n = 2 ^ k)
        ∧ (∀ j, n ≤ 2 ^ j → bitCeil n ≤ 2 ^ j)
        ∧ (s.allocate w n (some mem)).1.writePosition_ = 0
        ∧ (s.allocate w n (some mem)).1.readPosition_ = 0
        ∧ (s.allocate w n (some mem)).1.used w = 0) := by
  refine ⟨maxCapacity_eq w, ?_, ?_⟩
  · intro hg mo
    have hg2 : n < 2 ∨ 2 ^ (w - 1) < n := by
      rcases hg with hg | hg
      · exact Or.inl hg
      · rw [maxCapacity_eq w] at hg
        exact Or.inr hg
    rw [allocate_reject w s n mo hg2]
  · intro hn2 hnmax
    rw [maxCapacity_eq w] at hnmax
    obtain ⟨hret, hcap, _, hwp0, hrp0, _, _, hused0, _⟩ :=
      allocate_ok w s n mem hn2 hnmax
    exact ⟨hret, hcap, bitCeil_ge n, ⟨bitWidth (n - 1), bitCeil_pow n hn2⟩,
      fun j hj => bitCeil_le_pow n j hn2 hj, hwp0, hrp0, hused0⟩

theorem claim_C3_allocate_witness :
    (RingBuffer.init.allocate 4 9 none).2 = false
    ∧ (RingBuffer.init.allocate 4 5 (some sampleBuf)).2 = true
    ∧ (RingBuffer.init.allocate 4 5 (some sampleBuf)).1.capacity_ = 8 := by
  refine ⟨(claim_C3_allocate 4 9 RingBuffer.init sampleBuf).2.1
      (Or.inr (by decide)) none, ?_, ?_⟩
  · exact ((claim_C3_allocate 4 5 RingBuffer.init sampleBuf).2.2
      (by decide) (by decide)).1
  · have h2 := ((claim_C3_allocate 4 5 RingBuffer.init sampleBuf).2.2
      (by decide) (by decide)).2.1
    rw [h2]
    decide

/-- C4: on a well-formed buffer with valid arguments, write with the
partial flag off returns either zero or exactly the requested count; write
with the partial flag on returns the minimum of the free whole items and
the requested count; and the write cursor always advances by exactly the
returned item count times the item size, so only whole items transfer. -/
theorem claim_C4_write_policy (w : Nat) (s : RingBuffer) (data : List Byte)
    (isz cnt : Nat) (ap : Bool) (h : WF w s) (hisz : 0 < isz) (hcnt : 0 < cnt) :
    ((s.write w (some data) isz cnt false).2 = 0
      ∨ (s.write w (some data) isz cnt false).2 = cnt)
    ∧ (s.write w (some data) isz cnt true).2 = min (s.freeSpace w / isz) cnt
    ∧ (s.write w (some data) isz cnt ap).1.writePosition_
      = (s.writePosition_
          + (s.write w (some data) isz cnt ap).2 * isz) % 2 ^ w
    ∧ (s.write w (some data) isz cnt ap).1.readPosition_ = s.readPosition_ := by
  obtain ⟨hkf, _⟩ := write_spec w s data isz cnt false h hisz hcnt
  obtain ⟨hkt, _⟩ := write_spec w s data isz cnt true h hisz hcnt
  obtain ⟨_, _, _, _, hwp, hrp, _⟩ := write_spec w s data isz cnt ap h hisz hcnt
  refine ⟨?_, ?_, hwp, hrp⟩
  · by_cases hcond : s.freeSpace w / isz = 0 ∨ s.freeSpace w / isz < cnt
    · left
      rw [hkf, if_pos]
      rcases hcond with hc | hc
      · exact Or.inl hc
      · exact Or.inr ⟨hc, rfl⟩
    · right
      push_neg at hcond
      rw [hkf, if_neg (by push_neg; exact ⟨hcond.1, fun hlt => absurd hlt (by omega)⟩)]
      exact Nat.min_eq_right hcond.2
  · by_cases hz : s.freeSpace w / isz = 0
    · rw [hkt, if_pos (Or.inl hz), hz]
      omega
    · rw [hkt, if_neg]
      rintro (hc | ⟨_, hc⟩)
      · exact hz hc
      · exact absurd hc (by simp)

theorem claim_C4_write_policy_witness :
    ((sampleState.write 4 (some [1, 2, 3, 4, 5]) 2 5 false).2 = 0
      ∨ (sampleState.write 4 (some [1, 2, 3, 4, 5]) 2 5 false).2 = 5)
    ∧ (sampleState.write 4 (some [1, 2, 3, 4, 5]) 2 5 true).2
      = min (sampleState.freeSpace 4 / 2) 5
    ∧ (sampleState.write 4 (some [1, 2, 3, 4, 5]) 2 5 true).1.writePosition_
      = (sampleState.writePosition_
          + (sampleState.write 4 (some [1, 2, 3, 4, 5]) 2 5 true).2 * 2) % 2 ^ 4
    ∧ (sampleState.write 4 (some [1, 2, 3, 4, 5]) 2 5 true).1.readPosition_
      = sampleState.readPosition_ :=
  claim_C4_write_policy 4 sampleState [1, 2, 3, 4, 5] 2 5 true
    sampleState_wf (by decide) (by decide)

/-- C5: in every state reachable by sequentially executed public
operations, the used byte count (the unsigned difference of the cursors)
is at most the capacity, and availableBytes plus freeSpace equals
capacity; in the unallocated state all three are zero. -/
theorem claim_C5_counter_invariant (w : Nat) (s : RingBuffer) (h : Reach w s) :
    s.used w ≤ s.capacity_
    ∧ s.availableBytes w + s.freeSpace w = s.capacity_ := by
  rcases reach_inv w s h with hz | hwf
  · have h1 : s.used w = 0 := zero_used w s hz
    have h2 : s.freeSpace w = 0 := zero_freeSpace w s hz
    have h3 : s.availableBytes w = s.used w := availableBytes_eq_used s w
    rw [h1, h2, h3, h1, hz.1]
    exact ⟨le_refl 0, rfl⟩
  · have h1 : s.used w ≤ s.capacity_ := hwf.usedLe
    have h2 : s.freeSpace w = s.capacity_ - s.used w := freeSpace_eq hwf
    have h3 : s.availableBytes w = s.used w := availableBytes_eq_used s w
    constructor
    · exact h1
    · rw [h2, h3]
      omega

theorem claim_C5_counter_invariant_witness :
    (RingBuffer.init.allocate 4 3 (some sampleBuf)).1.used 4
        ≤ (RingBuffer.init.allocate 4 3 (some sampleBuf)).1.capacity_
    ∧ (RingBuffer.init.allocate 4 3 (some sampleBuf)).1.availableBytes 4
        + (RingBuffer.init.allocate 4 3 (some sampleBuf)).1.freeSpace 4
      = (RingBuffer.init.allocate 4 3 (some sampleBuf)).1.capacity_ :=
  claim_C5_counter_invariant 4 (RingBuffer.init.allocate 4 3 (some sampleBuf)).1
    (Reach.alloc RingBuffer.init 3 (some sampleBuf) Reach.init)

/-- C6: peek succeeds exactly when the requested whole items are
available, copies exactly itemCount times itemSize bytes on success, is
non-advancing by construction (the source method is const and the model
returns no state), and a subsequent read of the same size delivers the
identical bytes with the full count. -/
theorem claim_C6_peek (w : Nat) (s : RingBuffer) (isz cnt : Nat)
    (h : WF w s) (hisz : 0 < isz) (hcnt : 0 < cnt) :
    ((s.peek w false isz cnt).1 = true ↔ cnt ≤ s.used w / isz)
    ∧ (cnt ≤ s.used w / isz →
        (s.peek w false isz cnt).2.length = cnt * isz
        ∧ (s.peek w false isz cnt).2 = (s.read w false isz cnt false).2.2
        ∧ (s.read w false isz cnt false).2.1 = cnt) := by
  obtain ⟨hiff, hout⟩ := peek_spec w s isz cnt h hisz hcnt
  refine ⟨hiff, fun hle => ?_⟩
  have hbytes : cnt * isz ≤ s.used w :=
    le_trans (Nat.mul_le_mul_right isz hle) (Nat.div_mul_le_self _ _)
  obtain ⟨hk, _, hro, _⟩ := read_spec w s isz cnt false h hisz hcnt
  have hkv : (s.read w false isz cnt false).2.1 = cnt := by
    rw [hk, if_neg (by push_neg; exact ⟨by omega, fun hlt => absurd hlt (by omega)⟩)]
    exact Nat.min_eq_right hle
  refine ⟨?_, ?_, hkv⟩
  · rw [hout hle, List.length_take, queue_length]
    omega
  · rw [hout hle, hro, hkv]

theorem claim_C6_peek_witness :
    ((sampleState3.peek 4 false 1 2).1 = true ↔ 2 ≤ sampleState3.used 4 / 1)
    ∧ (2 ≤ sampleState3.used 4 / 1 →
        (sampleState3.peek 4 false 1 2).2.length = 2 * 1
        ∧ (sampleState3.peek 4 false 1 2).2 = (sampleState3.read 4 false 1 2 false).2.2
        ∧ (sampleState3.read 4 false 1 2 false).2.1 = 2) :=
  claim_C6_peek 4 sampleState3 1 2 sampleState3_wf (by decide) (by decide)

/-- C7: writeValues is all-or-nothing: when the two writable segments
cannot hold the total argument size it returns false and the state is
completely unchanged; otherwise it copies every argument in declaration
order through the two segments (the queue grows by exactly the
concatenated argument bytes, including arguments straddling the segment
boundary), advances the write cursor by the total size, and returns
true. -/
theorem claim_C7_writeValues (w : Nat) (s : RingBuffer) (args : List (List Byte))
    (h : WF w s) :
    ((s.writeVector w).1.size + (s.writeVector w).2.size
        < (args.map List.length).sum →
      s.writeValues w args = (s, false))
    ∧ ((args.map List.length).sum
        ≤ (s.writeVector w).1.size + (s.writeVector w).2.size →
      (s.writeValues w args).2 = true
      ∧ (s.writeValues w args).1.queue w = s.queue w ++ args.flatten
      ∧ (s.writeValues w args).1.writePosition_
        = (s.writePosition_ + (args.map List.length).sum) % 2 ^ w
      ∧ (s.writeValues w args).1.readPosition_ = s.readPosition_) := by
  obtain ⟨_, hsum, _⟩ := writeVector_spec h
  constructor
  · intro hlt
    exact writeValues_fail w s args h (by omega)
  · intro hle
    obtain ⟨h1, _, h3, _, h5, h6, _⟩ := writeValues_ok w s args h (by omega)
    exact ⟨h1, h3, h5, h6⟩

theorem claim_C7_writeValues_witness :
    ((sampleState3.writeVector 4).1.size + (sampleState3.writeVector 4).2.size
        < (List.map List.length [[1, 2], [3]]).sum →
      sampleState3.writeValues 4 [[1, 2], [3]] = (sampleState3, false))
    ∧ ((List.map List.length [[1, 2], [3]]).sum
        ≤ (sampleState3.writeVector 4).1.size + (sampleState3.writeVector 4).2.size →
      (sampleState3.writeValues 4 [[1, 2], [3]]).2 = true
      ∧ (sampleState3.writeValues 4 [[1, 2], [3]]).1.queue 4
        = sampleState3.queue 4 ++ List.flatten [[1, 2], [3]]
      ∧ (sampleState3.writeValues 4 [[1, 2], [3]]).1.writePosition_
        = (sampleState3.writePosition_ + (List.map List.length [[1, 2], [3]]).sum) % 2 ^ 4
      ∧ (sampleState3.writeValues 4 [[1, 2], [3]]).1.readPosition_
        = sampleState3.readPosition_) :=
  claim_C7_writeValues 4 sampleState3 [[1, 2], [3]] sampleState3_wf

/-- C8: skip with the partial flag follows the same integral-items policy
as read: with the flag off it skips exactly the requested count or nothing,
with the flag on it skips the minimum of the available whole items and the
request; it copies nothing (the backing region is untouched) and advances
the read cursor by exactly the skipped item count times the item size. -/
theorem claim_C8_skip (w : Nat) (s : RingBuffer) (isz cnt : Nat) (ap : Bool)
    (h : WF w s) (hisz : 0 < isz) (hcnt : 0 < cnt) :
    ((s.skip w isz cnt false).2 = 0 ∨ (s.skip w isz cnt false).2 = cnt)
    ∧ (s.skip w isz cnt true).2 = min (s.used w / isz) cnt
    ∧ (s.skip w isz cnt ap).1.readPosition_
      = (s.readPosition_ + (s.skip w isz cnt ap).2 * isz) % 2 ^ w
    ∧ (s.skip w isz cnt ap).1.buffer_ = s.buffer_
    ∧ (s.skip w isz cnt ap).1.writePosition_ = s.writePosition_ := by
  obtain ⟨hkf, _⟩ := skip_spec w s isz cnt false h hisz hcnt
  obtain ⟨hkt, _⟩ := skip_spec w s isz cnt true h hisz hcnt
  obtain ⟨_, _, _, _, hrp, hwp, hbuf, _⟩ := skip_spec w s isz cnt ap h hisz hcnt
  refine ⟨?_, ?_, hrp, hbuf, hwp⟩
  · by_cases hcond : s.used w / isz = 0 ∨ s.used w / isz < cnt
    · left
      rw [hkf, if_pos]
      rcases hcond with hc | hc
      · exact Or.inl hc
      · exact Or.inr ⟨hc, rfl⟩
    · right
      push_neg at hcond
      rw [hkf, if_neg (by push_neg; exact ⟨hcond.1, fun hlt => absurd hlt (by omega)⟩)]
      exact Nat.min_eq_right hcond.2
  · by_cases hz : s.used w / isz = 0
    · rw [hkt, if_pos (Or.inl hz), hz]
      omega
    · rw [hkt, if_neg]
      rintro (hc | ⟨_, hc⟩)
      · exact hz hc
      · exact absurd hc (by simp)

theorem claim_C8_skip_witness :
    ((sampleState3.skip 4 2 1 false).2 = 0 ∨ (sampleState3.skip 4 2 1 false).2 = 1)
    ∧ (sampleState3.skip 4 2 1 true).2 = min (sampleState3.used 4 / 2) 1
    ∧ (sampleState3.skip 4 2 1 true).1.readPosition_
      = (sampleState3.readPosition_ + (sampleState3.skip 4 2 1 true).2 * 2) % 2 ^ 4
    ∧ (sampleState3.skip 4 2 1 true).1.buffer_ = sampleState3.buffer_
    ∧ (sampleState3.skip 4 2 1 true).1.writePosition_ = sampleState3.writePosition_ :=
  claim_C8_skip 4 sampleState3 2 1 true sampleState3_wf (by decide) (by decide)

/-- C9: the optional-returning readValue preserves the strong exception
guarantee: if the default constructor of the target type throws, the
exception propagates with the ring buffer state unchanged; when fewer than
sizeof T bytes are available it returns an empty optional with the state
unchanged; and a successful call returns exactly the front sizeof T bytes
of the queue, the originally stored value. -/
theorem claim_C9_readValue_strong (w : Nat) (s : RingBuffer) (size : Nat)
    (h : WF w s) (hsz : 0 < size) :
    s.readValueOpt w true size = (s, Except.error ())
    ∧ (s.used w < size → s.readValueOpt w false size = (s, Except.ok none))
    ∧ (size ≤ s.used w →
        (s.readValueOpt w false size).2 = Except.ok (some ((s.queue w).take size))
        ∧ (s.readValueOpt w false size).1.queue w = (s.queue w).drop size) := by
  refine ⟨readValueOpt_throw w s size, ?_, ?_⟩
  · intro hlt
    exact readValueOpt_none w s size h hsz hlt
  · intro hge
    obtain ⟨h1, h2, _⟩ := readValueOpt_some w s size h hsz hge
    exact ⟨h1, h2⟩

theorem claim_C9_readValue_strong_witness :
    sampleState3.readValueOpt 4 true 2 = (sampleState3, Except.error ())
    ∧ (sampleState3.used 4 < 2 →
        sampleState3.readValueOpt 4 false 2 = (sampleState3, Except.ok none))
    ∧ (2 ≤ sampleState3.used 4 →
        (sampleState3.readValueOpt 4 false 2).2
          = Except.ok (some ((sampleState3.queue 4).take 2))
        ∧ (sampleState3.readValueOpt 4 false 2).1.queue 4
          = (sampleState3.queue 4).drop 2) :=
  claim_C9_readValue_strong 4 sampleState3 2 sampleState3_wf (by decide)

/-- C10: every write-side operation leaves the read cursor unchanged,
every read-side operation leaves the write cursor unchanged, read-side
operations do not touch the backing region contents, and no data-path
operation changes the capacity, the capacity mask, or the allocation
flag standing for the backing region pointer. -/
theorem claim_C10_frame (w : Nat) :
    (∀ (s : RingBuffer) (ptr : Option (List Byte)) (isz cnt : Nat) (ap : Bool),
      (s.write w ptr isz cnt ap).1.readPosition_ = s.readPosition_
      ∧ (s.write w ptr isz cnt ap).1.capacity_ = s.capacity_
      ∧ (s.write w ptr isz cnt ap).1.capacityMask_ = s.capacityMask_
      ∧ (s.write w ptr isz cnt ap).1.allocated = s.allocated)
    ∧ (∀ (s : RingBuffer) (args : List (List Byte)),
      (s.writeValues w args).1.readPosition_ = s.readPosition_
      ∧ (s.writeValues w args).1.capacity_ = s.capacity_
      ∧ (s.writeValues w args).1.capacityMask_ = s.capacityMask_
      ∧ (s.writeValues w args).1.allocated = s.allocated)
    ∧ (∀ (s : RingBuffer) (cnt : Nat),
      (s.commitWrite w cnt).readPosition_ = s.readPosition_
      ∧ (s.commitWrite w cnt).buffer_ = s.buffer_
      ∧ (s.commitWrite w cnt).capacity_ = s.capacity_
      ∧ (s.commitWrite w cnt).capacityMask_ = s.capacityMask_
      ∧ (s.commitWrite w cnt).allocated = s.allocated)
    ∧ (∀ (s : RingBuffer) (pn : Bool) (isz cnt : Nat) (ap : Bool),
      (s.read w pn isz cnt ap).1.writePosition_ = s.writePosition_
      ∧ (s.read w pn isz cnt ap).1.buffer_ = s.buffer_
      ∧ (s.read w pn isz cnt ap).1.capacity_ = s.capacity_
      ∧ (s.read w pn isz cnt ap).1.capacityMask_ = s.capacityMask_
      ∧ (s.read w pn isz cnt ap).1.allocated = s.allocated)
    ∧ (∀ (s : RingBuffer) (isz cnt : Nat) (ap : Bool),
      (s.skip w isz cnt ap).1.writePosition_ = s.writePosition_
      ∧ (s.skip w isz cnt ap).1.buffer_ = s.buffer_
      ∧ (s.skip w isz cnt ap).1.capacity_ = s.capacity_
      ∧ (s.skip w isz cnt ap).1.capacityMask_ = s.capacityMask_
      ∧ (s.skip w isz cnt ap).1.allocated = s.allocated)
    ∧ (∀ s : RingBuffer,
      (s.drain w).1.writePosition_ = s.writePosition_
      ∧ (s.drain w).1.buffer_ = s.buffer_
      ∧ (s.drain w).1.capacity_ = s.capacity_
      ∧ (s.drain w).1.capacityMask_ = s.capacityMask_
      ∧ (s.drain w).1.allocated = s.allocated)
    ∧ (∀ (s : RingBuffer) (cnt : Nat),
      (s.commitRead w cnt).writePosition_ = s.writePosition_
      ∧ (s.commitRead w cnt).buffer_ = s.buffer_
      ∧ (s.commitRead w cnt).capacity_ = s.capacity_
      ∧ (s.commitRead w cnt).capacityMask_ = s.capacityMask_
      ∧ (s.commitRead w cnt).allocated = s.allocated)
    ∧ (∀ (s : RingBuffer) (ct : Bool) (size : Nat),
      (s.readValueOpt w ct size).1.writePosition_ = s.writePosition_
      ∧ (s.readValueOpt w ct size).1.buffer_ = s.buffer_
      ∧ (s.readValueOpt w ct size).1.capacity_ = s.capacity_
      ∧ (s.readValueOpt w ct size).1.capacityMask_ = s.capacityMask_
      ∧ (s.readValueOpt w ct size).1.allocated = s.allocated) := by
  have hread : ∀ (s : RingBuffer) (pn : Bool) (isz cnt : Nat) (ap : Bool),
      (s.read w pn isz cnt ap).1.writePosition_ = s.writePosition_
      ∧ (s.read w pn isz cnt ap).1.buffer_ = s.buffer_
      ∧ (s.read w pn isz cnt ap).1.capacity_ = s.capacity_
      ∧ (s.read w pn isz cnt ap).1.capacityMask_ = s.capacityMask_
      ∧ (s.read w pn isz cnt ap).1.allocated = s.allocated := by
    intro s pn isz cnt ap
    unfold RingBuffer.read
    dsimp only
    split
    · exact ⟨rfl, rfl, rfl, rfl, rfl⟩
    · split
      · exact ⟨rfl, rfl, rfl, rfl, rfl⟩
      · exact ⟨rfl, rfl, rfl, rfl, rfl⟩
  refine ⟨?_, ?_, ?_, hread, ?_, ?_, ?_, ?_⟩
  · intro s ptr isz cnt ap
    match ptr with
    | none => exact ⟨rfl, rfl, rfl, rfl⟩
    | some data =>
      unfold RingBuffer.write
      dsimp only
      split
      · exact ⟨rfl, rfl, rfl, rfl⟩
      · split
        · exact ⟨rfl, rfl, rfl, rfl⟩
        · exact ⟨rfl, rfl, rfl, rfl⟩
  · intro s args
    unfold RingBuffer.writeValues
    dsimp only
    split
    · exact ⟨rfl, rfl, rfl, rfl⟩
    · exact ⟨rfl, rfl, rfl, rfl⟩
  · intro s cnt
    exact ⟨rfl, rfl, rfl, rfl, rfl⟩
  · intro s isz cnt ap
    unfold RingBuffer.skip
    dsimp only
    split
    · exact ⟨rfl, rfl, rfl, rfl, rfl⟩
    · split
      · exact ⟨rfl, rfl, rfl, rfl, rfl⟩
      · exact ⟨rfl, rfl, rfl, rfl, rfl⟩
  · intro s
    unfold RingBuffer.drain
    dsimp only
    split
    · exact ⟨rfl, rfl, rfl, rfl, rfl⟩
    · split
      · exact ⟨rfl, rfl, rfl, rfl, rfl⟩
      · exact ⟨rfl, rfl, rfl, rfl, rfl⟩
  · intro s cnt
    exact ⟨rfl, rfl, rfl, rfl, rfl⟩
  · intro s ct size
    match ct with
    | true => exact ⟨rfl, rfl, rfl, rfl, rfl⟩
    | false =>
      unfold RingBuffer.readValueOpt
      dsimp only
      split
      · exact ⟨rfl, rfl, rfl, rfl, rfl⟩
      · split
        · exact hread s false size 1 false
        · exact hread s false size 1 false

end CXXRB
